import Mathlib

/-!
Verification development for the greentic-pack canonicalization, signing and
verification subsystem (crates/packc: signing/canon.rs, signing/signer.rs,
signing/verify.rs, manifest.rs).

Bytes are modelled as natural numbers below 256 in lists.  External library
primitives that the code calls are modelled as follows: SHA-256, lowercase hex
encoding, UTF-8 encoding and URL-safe unpadded base64 are implemented
concretely; TOML textual serialization and the ed25519/PEM primitives are kept
as parameters (structures `Ext` and `Crypto`), since no claim depends on their
internals, only on their interface behaviour.
-/

namespace GreenticPack

/-- UTF-8 encoding of a single character, as byte values. -/
def utf8Bytes (c : Char) : List Nat :=
  let n := c.toNat
  if n < 128 then [n]
  else if n < 2048 then [192 + n / 64, 128 + n % 64]
  else if n < 65536 then [224 + n / 4096, 128 + (n / 64) % 64, 128 + n % 64]
  else [240 + n / 262144, 128 + (n / 4096) % 64, 128 + (n / 64) % 64, 128 + n % 64]

/-- UTF-8 encoding of a character list. -/
def bytesOfChars : List Char → List Nat
  | [] => []
  | c :: cs => utf8Bytes c ++ bytesOfChars cs

/-- UTF-8 bytes of a string (models Rust `str::as_bytes`). -/
def strBytes (s : String) : List Nat := bytesOfChars s.data

/-- Lowercase hex digits of one byte. -/
def hexByte (b : Nat) : List Char := [Nat.digitChar (b / 16), Nat.digitChar (b % 16)]

/-- Hex characters of a byte list. -/
def hexChars : List Nat → List Char
  | [] => []
  | b :: bs => hexByte b ++ hexChars bs

/-- Lowercase hex encoding of bytes (models `hex::encode`). -/
def hexEncode (bs : List Nat) : String := String.mk (hexChars bs)

/-! SHA-256, implemented concretely over byte lists (models the `sha2` crate). -/

/-- Right rotation of a 32-bit word. -/
def rotr32 (n x : Nat) : Nat := ((x >>> n) ||| (x <<< (32 - n))) % 4294967296

/-- Big-endian 8-byte encoding of a natural number. -/
def be64 (n : Nat) : List Nat :=
  [(n >>> 56) % 256, (n >>> 48) % 256, (n >>> 40) % 256, (n >>> 32) % 256,
   (n >>> 24) % 256, (n >>> 16) % 256, (n >>> 8) % 256, n % 256]

/-- Big-endian 4-byte encoding of a 32-bit word. -/
def wordBe4 (w : Nat) : List Nat :=
  [(w >>> 24) % 256, (w >>> 16) % 256, (w >>> 8) % 256, w % 256]

/-- SHA-256 padding: append 0x80, zeros, and the 64-bit big-endian bit length. -/
def sha256Pad (msg : List Nat) : List Nat :=
  msg ++ (128 :: List.replicate ((119 - (msg.length % 64)) % 64) 0) ++ be64 (8 * msg.length)

/-- Working state of the SHA-256 compression function. -/
structure Sha8 where
  a : Nat
  b : Nat
  c : Nat
  d : Nat
  e : Nat
  f : Nat
  g : Nat
  h : Nat
deriving DecidableEq, Repr

/-- Initial SHA-256 hash state. -/
def shaInit : Sha8 :=
  ⟨1779033703, 3144134277, 1013904242, 2773480762,
   1359893119, 2600822924, 528734635, 1541459225⟩

/-- The 64 SHA-256 round constants (FIPS 180-4, written in decimal). -/
def shaK : List Nat :=
  [1116352408, 1899447441, 3049323471, 3921009573, 961987163, 1508970993,
   2453635748, 2870763221, 3624381080, 310598401, 607225278, 1426881987,
   1925078388, 2162078206, 2614888103, 3248222580, 3835390401, 4022224774,
   264347078, 604807628, 770255983, 1249150122, 1555081692, 1996064986,
   2554220882, 2821834349, 2952996808, 3210313671, 3336571891, 3584528711,
   113926993, 338241895, 666307205, 773529912, 1294757372, 1396182291,
   1695183700, 1986661051, 2177026350, 2456956037, 2730485921, 2820302411,
   3259730800, 3345764771, 3516065817, 3600352804, 4094571909, 275423344,
   430227734, 506948616, 659060556, 883997877, 958139571, 1322822218,
   1537002063, 1747873779, 1955562222, 2024104815, 2227730452, 2361852424,
   2428436474, 2756734187, 3204031479, 3329325298]

/-- Big sigma 0. -/
def bigS0 (x : Nat) : Nat := rotr32 2 x ^^^ rotr32 13 x ^^^ rotr32 22 x

/-- Big sigma 1. -/
def bigS1 (x : Nat) : Nat := rotr32 6 x ^^^ rotr32 11 x ^^^ rotr32 25 x

/-- Small sigma 0. -/
def smallS0 (x : Nat) : Nat := rotr32 7 x ^^^ rotr32 18 x ^^^ (x >>> 3)

/-- Small sigma 1. -/
def smallS1 (x : Nat) : Nat := rotr32 17 x ^^^ rotr32 19 x ^^^ (x >>> 10)

/-- One SHA-256 round, taking the already-summed constant and schedule word. -/
def shaRound (s : Sha8) (kw : Nat) : Sha8 :=
  let ch := (s.e &&& s.f) ^^^ ((s.e ^^^ 4294967295) &&& s.g)
  let maj := (s.a &&& s.b) ^^^ (s.a &&& s.c) ^^^ (s.b &&& s.c)
  let t1 := (s.h + bigS1 s.e + ch + kw) % 4294967296
  let t2 := (bigS0 s.a + maj) % 4294967296
  ⟨(t1 + t2) % 4294967296, s.a, s.b, s.c, (s.d + t1) % 4294967296, s.e, s.f, s.g⟩

/-- Group bytes four at a time into big-endian 32-bit words. -/
def blockWords : List Nat → List Nat
  | a :: b :: c :: d :: rest => (((a * 256 + b) * 256 + c) * 256 + d) :: blockWords rest
  | _ => []

/-- Extend the message schedule by the given number of additional words. -/
def schedExt (w : List Nat) : Nat → List Nat
  | 0 => w
  | n + 1 =>
    let l := w.length
    schedExt
      (w ++ [(smallS1 (w.getD (l - 2) 0) + w.getD (l - 7) 0 +
              smallS0 (w.getD (l - 15) 0) + w.getD (l - 16) 0) % 4294967296]) n

/-- SHA-256 compression of one 64-byte block into the running state. -/
def shaCompress (st : Sha8) (block : List Nat) : Sha8 :=
  let w := schedExt (blockWords block) 48
  let kw := List.zipWith (fun k x => (k + x) % 4294967296) shaK w
  let r := kw.foldl shaRound st
  ⟨(st.a + r.a) % 4294967296, (st.b + r.b) % 4294967296, (st.c + r.c) % 4294967296,
   (st.d + r.d) % 4294967296, (st.e + r.e) % 4294967296, (st.f + r.f) % 4294967296,
   (st.g + r.g) % 4294967296, (st.h + r.h) % 4294967296⟩

/-- Split a byte list into 64-byte blocks (fuel-driven structural recursion;
the fuel is the list length, which always suffices). -/
def toBlocksF : Nat → List Nat → List (List Nat)
  | 0, _ => []
  | _ + 1, [] => []
  | fuel + 1, x :: xs => (x :: xs).take 64 :: toBlocksF fuel ((x :: xs).drop 64)

/-- Split a byte list into 64-byte blocks. -/
def toBlocks (l : List Nat) : List (List Nat) := toBlocksF l.length l

/-- SHA-256 digest (32 bytes) of a byte list. -/
def sha256 (msg : List Nat) : List Nat :=
  let s := (toBlocks (sha256Pad msg)).foldl shaCompress shaInit
  wordBe4 s.a ++ wordBe4 s.b ++ wordBe4 s.c ++ wordBe4 s.d ++
  wordBe4 s.e ++ wordBe4 s.f ++ wordBe4 s.g ++ wordBe4 s.h

/-! URL-safe base64 without padding (models the `base64` crate engine
`URL_SAFE_NO_PAD`: strict about non-alphabet characters, input length
congruent to 1 mod 4, and nonzero trailing bits). -/

/-- Decode errors of the base64 engine (payloads of the corresponding
`base64::DecodeError` variants are dropped; no claim inspects them). -/
inductive B64Err where
  | invalidByte
  | invalidLength
  | invalidLastSymbol
deriving DecidableEq, Repr

/-- Break bytes into 6-bit values, three bytes to four values. -/
def b64EncVals : List Nat → List Nat
  | [] => []
  | [b1] => [b1 / 4, (b1 % 4) * 16]
  | [b1, b2] => [b1 / 4, (b1 % 4) * 16 + b2 / 16, (b2 % 16) * 4]
  | b1 :: b2 :: b3 :: rest =>
      b1 / 4 :: ((b1 % 4) * 16 + b2 / 16) :: ((b2 % 16) * 4 + b3 / 64) :: (b3 % 64) ::
        b64EncVals rest

/-- Character of one 6-bit value in the URL-safe alphabet. -/
def b64Char (v : Nat) : Char :=
  if v < 26 then Char.ofNat (65 + v)
  else if v < 52 then Char.ofNat (71 + v)
  else if v < 62 then Char.ofNat (v - 4)
  else if v = 62 then Char.ofNat 45
  else Char.ofNat 95

/-- URL-safe unpadded base64 encoding of a byte list. -/
def b64urlEncode (bs : List Nat) : String := String.mk ((b64EncVals bs).map b64Char)

/-- Value of one character of the URL-safe alphabet. -/
def b64Val (c : Char) : Option Nat :=
  if 'A' ≤ c ∧ c ≤ 'Z' then some (c.toNat - 65)
  else if 'a' ≤ c ∧ c ≤ 'z' then some (c.toNat - 71)
  else if '0' ≤ c ∧ c ≤ '9' then some (c.toNat + 4)
  else if c = '-' then some 62
  else if c = '_' then some 63
  else none

/-- Map characters to 6-bit values, rejecting non-alphabet characters. -/
def b64ValsOfChars : List Char → Except B64Err (List Nat)
  | [] => .ok []
  | c :: rest =>
    match b64Val c with
    | none => .error .invalidByte
    | some v =>
        match b64ValsOfChars rest with
        | .error e => .error e
        | .ok t => .ok (v :: t)

/-- Reassemble bytes from 6-bit values, four values to three bytes, checking
that trailing bits of a final partial group are zero. -/
def b64DecChunks : List Nat → Except B64Err (List Nat)
  | [] => .ok []
  | [_] => .error .invalidLength
  | [c1, c2] => if c2 % 16 = 0 then .ok [c1 * 4 + c2 / 16] else .error .invalidLastSymbol
  | [c1, c2, c3] =>
      if c3 % 4 = 0 then .ok [c1 * 4 + c2 / 16, (c2 % 16) * 16 + c3 / 4]
      else .error .invalidLastSymbol
  | c1 :: c2 :: c3 :: c4 :: rest =>
      match b64DecChunks rest with
      | .error e => .error e
      | .ok t => .ok ((c1 * 4 + c2 / 16) :: ((c2 % 16) * 16 + c3 / 4) :: ((c3 % 4) * 64 + c4) :: t)

/-- URL-safe unpadded base64 decoding. -/
def b64urlDecode (s : String) : Except B64Err (List Nat) :=
  if s.data.length % 4 = 1 then .error .invalidLength
  else
    match b64ValsOfChars s.data with
    | .error e => .error e
    | .ok vs => b64DecChunks vs

/-! Timestamps.  `time::OffsetDateTime` values are modelled as integers (Unix
seconds); `UNIX_EPOCH` is 0.  The RFC3339 formatter/parser pair used by the
signature block is modelled as an injective decimal rendering with a matching
parser, which is the only property of the external `time` crate the code
relies on. -/

/-- Little-endian decimal digits, with fuel to keep the recursion structural. -/
def digits10F : Nat → Nat → List Nat
  | 0, _ => []
  | _ + 1, 0 => []
  | fuel + 1, m + 1 => ((m + 1) % 10) :: digits10F fuel ((m + 1) / 10)

/-- Little-endian decimal digits of a natural number. -/
def digits10 (n : Nat) : List Nat := digits10F n n

theorem digits10F_eq_digits (fuel : Nat) :
    ∀ n, n ≤ fuel → digits10F fuel n = Nat.digits 10 n := by
  induction fuel with
  | zero =>
      intro n h
      have h0 : n = 0 := by omega
      subst h0
      simp [digits10F]
  | succ f ih =>
      intro n h
      match n with
      | 0 => simp [digits10F]
      | m + 1 =>
          rw [show digits10F (f + 1) (m + 1) =
            ((m + 1) % 10) :: digits10F f ((m + 1) / 10) from rfl]
          rw [Nat.digits_def' (by norm_num : (1 : Nat) < 10) (Nat.succ_pos m)]
          rw [ih ((m + 1) / 10) (by omega)]

theorem digits10_eq_digits (n : Nat) : digits10 n = Nat.digits 10 n :=
  digits10F_eq_digits n n le_rfl

/-- Decimal digits of a natural number, most significant first. -/
def natDecChars (n : Nat) : List Char := ((digits10 n).map Nat.digitChar).reverse

/-- Value of a decimal digit character. -/
def decDigitVal (c : Char) : Option Nat :=
  if '0' ≤ c ∧ c ≤ '9' then some (c.toNat - 48) else none

/-- Parse a decimal digit list, most significant first. -/
def decodeNatChars : List Char → Option (List Nat)
  | [] => some []
  | c :: rest => do
      let d ← decDigitVal c
      let t ← decodeNatChars rest
      some (d :: t)

/-- Models the RFC3339 rendering of a timestamp (injective textual encoding). -/
def encTs (t : Int) : String :=
  String.mk (if t < 0 then Char.ofNat 45 :: natDecChars (-t).toNat else natDecChars t.toNat)

/-- Models the RFC3339 parser matching `encTs`. -/
def decTs (s : String) : Option Int :=
  match s.data with
  | c :: rest =>
      if c = Char.ofNat 45 then do
        let ds ← decodeNatChars rest
        some (-((Nat.ofDigits 10 ds.reverse : Nat) : Int))
      else do
        let ds ← decodeNatChars s.data
        some (((Nat.ofDigits 10 ds.reverse : Nat) : Int))
  | [] => some 0

/-! TOML documents.  Models `toml::Value`; tables model `toml::map::Map`,
which with the crate's default features is backed by a B-tree map, i.e. an
association list sorted strictly ascending by key with at most one entry per
key.  The operations below (lookup, insert, remove) are the map operations
the manifest store uses. -/

/-- Model of `toml::Value`. -/
inductive Toml where
  | str (s : String)
  | intv (n : Int)
  | boolv (b : Bool)
  | arr (xs : List Toml)
  | table (m : List (String × Toml))

/-- Lookup in a table (first entry with the key). -/
def tget (m : List (String × Toml)) (k : String) : Option Toml :=
  match m with
  | [] => none
  | (k1, v1) :: rest => if k1 = k then some v1 else tget rest k

/-- Sorted-map insert: replaces the value if the key is present, otherwise
inserts at the sorted position. -/
def tinsert (m : List (String × Toml)) (k : String) (v : Toml) : List (String × Toml) :=
  match m with
  | [] => [(k, v)]
  | (k1, v1) :: rest =>
    if k < k1 then (k, v) :: (k1, v1) :: rest
    else if k = k1 then (k, v) :: rest
    else (k1, v1) :: tinsert rest k v

/-- Map remove: drops every entry with the key (a map has at most one). -/
def tremove (m : List (String × Toml)) (k : String) : List (String × Toml) :=
  m.filter (fun p => !(p.1 == k))

/-- Update the value stored at a key, in place (models mutation through
`get_mut` of a map value; keys and their order are untouched). -/
def tupdate (m : List (String × Toml)) (k : String) (v : Toml) : List (String × Toml) :=
  m.map (fun p => if p.1 = k then (k, v) else p)

/-- Error kinds of the manifest store and canonicalizer (the code reports them
as distinct `anyhow` messages; payloads are dropped). -/
inductive PackErr where
  | manifestRead
  | manifestParse
  | manifestNotFound
  | notTable
  | badSignatureBlock
  | pathNotUtf8
  | loadKey
deriving DecidableEq, Repr

/-- Model of `PackSignature` (manifest.rs); `created_at` is a Unix timestamp. -/
structure PackSignature where
  alg : String
  key_id : String
  created_at : Int
  digest : String
  sig : String
deriving DecidableEq, Repr

/-- Serde serialization of `PackSignature` into a TOML value (a table sorted by
key, with `created_at` rendered as a timestamp string). -/
def sigToToml (s : PackSignature) : Toml :=
  .table [("alg", .str s.alg), ("created_at", .str (encTs s.created_at)),
          ("digest", .str s.digest), ("key_id", .str s.key_id), ("sig", .str s.sig)]

/-- Serde deserialization of `PackSignature` from a TOML value: all five fields
must be present as strings and the timestamp must parse. -/
def sigFromToml (v : Toml) : Option PackSignature :=
  match v with
  | .table m =>
    match tget m "alg", tget m "created_at", tget m "digest", tget m "key_id", tget m "sig" with
    | some (.str alg), some (.str ca), some (.str digest), some (.str kid), some (.str sig) =>
        (decTs ca).map (fun t => ⟨alg, kid, t, digest, sig⟩)
    | _, _, _, _, _ => none
  | _ => none

/-- Model of `strip_signature` (manifest.rs 257-270): remove the
`greentic.signature` sub-block, and the `greentic` section if it became empty;
a non-table document or `greentic` value is left untouched. -/
def stripSignature (doc : Toml) : Toml :=
  match doc with
  | .table m =>
    match tget m "greentic" with
    | some (.table g) =>
        let g2 := tremove g "signature"
        if g2.isEmpty then .table (tremove m "greentic")
        else .table (tupdate m "greentic" (.table g2))
    | _ => doc
  | _ => doc

/-- Model of `set_signature` (manifest.rs 237-255): insert or replace the
signature sub-block under `greentic`, creating the section when missing;
fails when the document or an existing `greentic` value is not a table. -/
def setSignature (doc : Toml) (s : PackSignature) : Except PackErr Toml :=
  match doc with
  | .table m =>
    match tget m "greentic" with
    | none => .ok (.table (tinsert m "greentic" (.table [("signature", sigToToml s)])))
    | some (.table g) =>
        .ok (.table (tupdate m "greentic" (.table (tinsert g "signature" (sigToToml s)))))
    | some _ => .error .notTable
  | _ => .error .notTable

/-- Model of `signature_from_doc` (manifest.rs 272-295). -/
def signatureFromDoc (doc : Toml) : Except PackErr (Option PackSignature) :=
  match doc with
  | .table m =>
    match tget m "greentic" with
    | none => .ok none
    | some (.table g) =>
      match tget g "signature" with
      | none => .ok none
      | some v =>
        match sigFromToml v with
        | some s => .ok (some s)
        | none => .error .badSignatureBlock
    | some _ => .error .notTable
  | _ => .error .notTable

/-! Paths.  A root-relative path is a list of `std::path::Component` values;
a component name is `Option String`, the result of `OsStr::to_str` (`none`
models a name that is not valid Unicode). -/

/-- Model of `std::path::Component`. -/
inductive PComp where
  | normal (name : Option String)
  | curDir
  | parentDir
  | rootDir
  | drivePfx
deriving DecidableEq, Repr

/-- Does a component match the built-in directory skip rules? -/
def isSkipSeg (c : PComp) : Bool :=
  match c with
  | .normal (some s) => s = ".git" || s = "target"
  | _ => false

/-- Last component of a path. -/
def lastComp : List PComp → Option PComp
  | [] => none
  | [c] => some c
  | _ :: c :: rest => lastComp (c :: rest)

/-- Model of `Path::file_name().and_then(OsStr::to_str)`. -/
def fileNameStr (p : List PComp) : Option String :=
  match lastComp p with
  | some (.normal (some s)) => some s
  | _ => none

/-- Model of `should_skip` (canon.rs 105-114). -/
def shouldSkip (p : List PComp) : Bool :=
  p.any isSkipSeg || (fileNameStr p == some ".DS_Store")

/-- Segment accumulation of `normalize_path` (canon.rs 116-128). -/
def normalizeSegs : List PComp → Option (List String)
  | [] => some []
  | c :: rest =>
    match c with
    | .normal n => do
        let s ← n
        let t ← normalizeSegs rest
        some (s :: t)
    | .curDir => normalizeSegs rest
    | .parentDir => (normalizeSegs rest).map (fun t => ".." :: t)
    | .rootDir => none
    | .drivePfx => none

/-- Model of `normalize_path`: forward-slash-joined relative path string. -/
def normalizePath (p : List PComp) : Option String :=
  (normalizeSegs p).map (fun segs => String.intercalate "/" segs)

/-- The fixed ordered list of recognized manifest filenames. -/
def manifestCandidates : List String := ["pack.toml", "greentic-pack.toml"]

/-- Model of `is_pack_manifest_path` (manifest.rs 178-187). -/
def isPackManifestPath (p : List PComp) : Bool :=
  match fileNameStr p with
  | some s => manifestCandidates.any (fun c => c = s)
  | none => false

/-! Pack directories.  A directory is modelled by the list of entries the
`.packignore`-aware walker yields (in walk order) together with the root-level
files probed by name for the manifest.  The two views are kept separate
because a `.packignore` pattern can hide the manifest from the walker while
the store still probes it directly. -/

/-- One entry yielded by the directory walker. -/
structure WalkEntry where
  /-- Depth below the walk root (0 is the root itself). -/
  depth : Nat
  /-- File type: `none` unknown, `some true` directory, `some false` file. -/
  fileType : Option Bool
  /-- Path relative to the pack root. -/
  comps : List PComp
  /-- Raw byte content of the file. -/
  content : List Nat
  /-- TOML parse of the content, when the file parses as TOML. -/
  asToml : Option Toml

/-- A pack directory state. -/
structure Dir where
  /-- Entries the walker yields, in walk order. -/
  walked : List WalkEntry
  /-- Root files probed by filename, with their TOML parse result (the value
  is `none` when the file exists but cannot be read or parsed). -/
  rootFiles : List (String × Option Toml)

/-- External TOML serializers (the `toml` crate): deterministic functions from
documents to bytes.  No claim depends on the rendered text, so they are kept
as parameters. -/
structure Ext where
  /-- Bytes of `toml::to_string`. -/
  ser : Toml → List Nat
  /-- Bytes of `toml::to_string_pretty`. -/
  serPretty : Toml → List Nat

/-- A canonical (path, content) entry (canon.rs `CanonicalEntry`). -/
structure CanonicalEntry where
  rel_path : String
  contents : List Nat
deriving DecidableEq, Repr

/-- Model of `read_manifest_without_signature` (manifest.rs 189-195) applied
to a parsed file: strip the signature block and re-serialize. -/
def readManifestWithoutSignatureBytes (ext : Ext) (parsed : Option Toml) :
    Except PackErr (List Nat) :=
  match parsed with
  | none => .error .manifestParse
  | some doc => .ok (ext.ser (stripSignature doc))

/-- Processing of one walked entry in the canonicalization loop
(canon.rs 42-80): `ok none` means the entry is passed over. -/
def processEntry (ext : Ext) (e : WalkEntry) : Except PackErr (Option CanonicalEntry) :=
  if e.depth = 0 then .ok none
  else
    match e.fileType with
    | none => .ok none
    | some true => .ok none
    | some false =>
      if shouldSkip e.comps then .ok none
      else
        match normalizePath e.comps with
        | none => .error .pathNotUtf8
        | some rel =>
          if isPackManifestPath e.comps then
            match readManifestWithoutSignatureBytes ext e.asToml with
            | .error err => .error err
            | .ok bs => .ok (some ⟨rel, bs⟩)
          else .ok (some ⟨rel, e.content⟩)

/-- The canonicalization loop over the walked entries. -/
def collectEntries (ext : Ext) : List WalkEntry → Except PackErr (List CanonicalEntry)
  | [] => .ok []
  | e :: rest =>
    match processEntry ext e with
    | .error err => .error err
    | .ok o =>
      match collectEntries ext rest with
      | .error err => .error err
      | .ok t =>
        match o with
        | none => .ok t
        | some ce => .ok (ce :: t)

/-- Lexicographic comparison of character lists by codepoint.  Rust compares
`String`s by their UTF-8 bytes; byte order and codepoint order coincide
because UTF-8 is order-preserving, so this models `rel_path.cmp` giving
less-or-equal. -/
def charsLeB : List Char → List Char → Bool
  | [], _ => true
  | _ :: _, [] => false
  | a :: as, b :: bs =>
      if a.toNat < b.toNat then true else if a = b then charsLeB as bs else false

/-- Comparison used by `entries.sort_by` on `rel_path`. -/
def entryRel (a b : CanonicalEntry) : Prop :=
  charsLeB a.rel_path.data b.rel_path.data = true

instance : DecidableRel entryRel := fun a b =>
  inferInstanceAs (Decidable (charsLeB a.rel_path.data b.rel_path.data = true))

/-- Textual header written before each entry's content. -/
def entryHeader (e : CanonicalEntry) : String :=
  "PATH\x00" ++ e.rel_path ++ "\nLEN\x00" ++ Nat.repr e.contents.length ++ "\n"

/-- Bytes contributed by one canonical entry. -/
def entryBytes (e : CanonicalEntry) : List Nat := strBytes (entryHeader e) ++ e.contents

/-- The buffer-building loop (canon.rs 84-89). -/
def buildBuffer (entries : List CanonicalEntry) : List Nat :=
  entries.foldl (fun buf e => buf ++ entryBytes e) []

/-- Model of `CanonicalizedPack` (canon.rs 14-19). -/
structure CanonicalizedPack where
  bytes : List Nat
  digest_hex : String
deriving DecidableEq, Repr

/-- Model of `canonicalize_pack_dir` (canon.rs 22-98): collect entries, sort
by relative path (stably, as Rust `sort_by` does), concatenate, hash. -/
def canonicalizePackDir (ext : Ext) (d : Dir) : Except PackErr CanonicalizedPack :=
  match collectEntries ext d.walked with
  | .error e => .error e
  | .ok entries =>
    let buffer := buildBuffer (List.insertionSort entryRel entries)
    .ok ⟨buffer, hexEncode (sha256 buffer)⟩

/-- Model of `find_manifest_path` (manifest.rs 166-171): first existing
candidate filename. -/
def findManifestName (d : Dir) : Option String :=
  manifestCandidates.find? (fun n => (d.rootFiles.lookup n).isSome)

/-- Model of `load_manifest_value` (manifest.rs 229-235) on a probed root
file. -/
def loadManifestValue (d : Dir) (name : String) : Except PackErr Toml :=
  match d.rootFiles.lookup name with
  | some (some doc) => .ok doc
  | some none => .error .manifestParse
  | none => .error .manifestRead

/-- Model of `read_signature` (manifest.rs 197-204): no manifest means no
signature, not an error. -/
def readSignature (d : Dir) : Except PackErr (Option PackSignature) :=
  match findManifestName d with
  | none => .ok none
  | some name =>
    match loadManifestValue d name with
    | .error e => .error e
    | .ok doc => signatureFromDoc doc

/-- Relative path of a root file with the given name. -/
def manifestRootComps (name : String) : List PComp := [PComp.normal (some name)]

/-- Filesystem effect of the manifest write on a walked entry: the entry at
the manifest's root path now carries the new document. -/
def updWalk (ext : Ext) (name : String) (newDoc : Toml) (e : WalkEntry) : WalkEntry :=
  if e.comps = manifestRootComps name then
    { e with content := ext.serPretty newDoc, asToml := some newDoc }
  else e

/-- Filesystem effect of the manifest write on a probed root file. -/
def updRoot (name : String) (v : Option Toml) (p : String × Option Toml) :
    String × Option Toml :=
  if p.1 = name then (p.1, v) else p

/-- Model of `write_signature` (manifest.rs 206-227) writing in place (the
call made by `sign_pack_dir`): the manifest document gains the signature
block, and every walked entry at that root path sees the new content. -/
def writeSignature (ext : Ext) (d : Dir) (s : PackSignature) : Except PackErr Dir :=
  match findManifestName d with
  | none => .error .manifestNotFound
  | some name =>
    match loadManifestValue d name with
    | .error e => .error e
    | .ok doc =>
      match setSignature doc s with
      | .error e => .error e
      | .ok newDoc =>
        .ok { walked := d.walked.map (updWalk ext name newDoc),
              rootFiles := d.rootFiles.map (updRoot name (some newDoc)) }

/-! Cryptographic primitives (the `ed25519_dalek` and `pkcs8` crates), kept as
parameters: a signing key is its public key bytes together with its
deterministic signing function. -/

/-- Model of `ed25519_dalek::SigningKey`. -/
structure SigKey where
  /-- Bytes of `verifying_key().as_bytes()`. -/
  pubBytes : List Nat
  /-- Deterministic signing over a message. -/
  sign : List Nat → List Nat

/-- External crypto and PEM primitives. -/
structure Crypto where
  /-- Model of `SigningKey::from_pkcs8_pem`. -/
  fromPkcs8Pem : String → Option SigKey
  /-- Model of `SecretDocument::from_pem`: PEM label and DER bytes. -/
  secretDocFromPem : String → Option (String × List Nat)
  /-- Model of `SigningKey::from_pkcs8_der`. -/
  fromPkcs8Der : List Nat → Option SigKey
  /-- Model of `VerifyingKey::from_public_key_pem`, as raw key bytes. -/
  fromPublicKeyPem : String → Option (List Nat)
  /-- Model of `VerifyingKey::verify`: key bytes, message, signature bytes. -/
  edVerify : List Nat → List Nat → List Nat → Bool

/-- Model of `load_signing_key` (signer.rs 56-73): PKCS#8 PEM, with a
fallback for the raw `ED25519 PRIVATE KEY` PEM label. -/
def loadSigningKey (c : Crypto) (pem : String) : Option SigKey :=
  match c.fromPkcs8Pem pem with
  | some k => some k
  | none =>
    match c.secretDocFromPem pem with
    | none => none
    | some (label, der) =>
        if label = "ED25519 PRIVATE KEY" then c.fromPkcs8Der der else none

/-- Model of `derive_key_id` (signer.rs 75-79, verify.rs 116-119): lowercase
hex of the first 16 bytes of the SHA-256 of the public key bytes. -/
def deriveKeyId (pubKeyBytes : List Nat) : String :=
  hexEncode ((sha256 pubKeyBytes).take 16)

/-- Model of `SigningOutcome` (signer.rs 18-23). -/
structure SigningOutcome where
  signature : PackSignature
  canonical : CanonicalizedPack

/-- Model of `sign_pack` (signer.rs 25-54); `now` is the clock reading taken
by `OffsetDateTime::now_utc()`. -/
def signPack (c : Crypto) (ext : Ext) (now : Int) (d : Dir) (pem : String)
    (kidOverride : Option String) : Except PackErr SigningOutcome :=
  match canonicalizePackDir ext d with
  | .error e => .error e
  | .ok canonical =>
    match loadSigningKey c pem with
    | none => .error .loadKey
    | some sk =>
      let kid := match kidOverride with
        | some v => v
        | none => deriveKeyId sk.pubBytes
      .ok ⟨⟨"ed25519", kid, now, "sha256:" ++ canonical.digest_hex,
            b64urlEncode (sk.sign canonical.bytes)⟩, canonical⟩

/-- Model of `sign_pack_dir` (signing/mod.rs 27-35): sign, then embed the
signature into the manifest; returns the signature and the updated directory. -/
def signPackDir (c : Crypto) (ext : Ext) (now : Int) (d : Dir) (pem : String)
    (kidOverride : Option String) : Except PackErr (PackSignature × Dir) :=
  match signPack c ext now d pem kidOverride with
  | .error e => .error e
  | .ok outcome =>
    match writeSignature ext d outcome.signature with
    | .error e => .error e
    | .ok d2 => .ok (outcome.signature, d2)

/-- ASCII lowercasing of one character. -/
def asciiLower (ch : Char) : Char :=
  if 'A' ≤ ch ∧ ch ≤ 'Z' then Char.ofNat (ch.toNat + 32) else ch

/-- Model of `str::eq_ignore_ascii_case`. -/
def eqIgnoreAsciiCase (a b : String) : Bool :=
  a.data.map asciiLower == b.data.map asciiLower

/-- Model of `VerifyOptions` (signing/mod.rs 17-23). -/
structure VerifyOptions where
  public_key_pem : Option String
  allow_unsigned : Bool

/-- Model of `VerificationError` (verify.rs 18-44). -/
inductive VerificationError where
  | MissingSignature
  | DigestMismatch (expected computed : String)
  | UnsupportedAlgorithm (algorithm : String)
  | KeyNotFound (key_id : String)
  | KeyIdMismatch (expected provided : String)
  | SignatureDecode (e : B64Err)
  | SignatureLength (n : Nat)
  | PublicKeySpki
  | InvalidSignature (key_id : String)
  | SignatureMalformed
  | Manifest (e : PackErr)
deriving DecidableEq, Repr

/-- Model of `verify_pack` (verify.rs 47-114).  `Signature::from_slice` can
only fail on a length other than 64, which the preceding check excludes, so
the `SignatureMalformed` branch is unreachable and the model proceeds to the
cryptographic check directly. -/
def verifyPack (c : Crypto) (ext : Ext) (d : Dir) (opts : VerifyOptions) :
    Except VerificationError PackSignature :=
  match canonicalizePackDir ext d with
  | .error e => .error (.Manifest e)
  | .ok canonical =>
  match readSignature d with
  | .error e => .error (.Manifest e)
  | .ok signatureOpt =>
  match signatureOpt with
  | none =>
    if opts.allow_unsigned then
      .ok ⟨"none", "unsigned", 0, "sha256:" ++ canonical.digest_hex, ""⟩
    else
      .error .MissingSignature
  | some signature =>
    if !eqIgnoreAsciiCase signature.alg "ed25519" then
      .error (.UnsupportedAlgorithm signature.alg)
    else
      let expected := "sha256:" ++ canonical.digest_hex
      if signature.digest ≠ expected then
        .error (.DigestMismatch signature.digest expected)
      else
        match opts.public_key_pem with
        | none => .error (.KeyNotFound signature.key_id)
        | some pem =>
          match c.fromPublicKeyPem pem with
          | none => .error .PublicKeySpki
          | some pubBytes =>
            let derived := deriveKeyId pubBytes
            if derived ≠ signature.key_id then
              .error (.KeyIdMismatch signature.key_id derived)
            else
              match b64urlDecode signature.sig with
              | .error e => .error (.SignatureDecode e)
              | .ok raw =>
                if raw.length ≠ 64 then
                  .error (.SignatureLength raw.length)
                else
                  if c.edVerify pubBytes canonical.bytes raw then
                    .ok signature
                  else
                    .error (.InvalidSignature signature.key_id)

/-! Map lemmas for the TOML table operations. -/

theorem tget_cons (k1 : String) (v1 : Toml) (rest : List (String × Toml)) (k : String) :
    tget ((k1, v1) :: rest) k = if k1 = k then some v1 else tget rest k := rfl

theorem tupdate_cons (k1 : String) (v1 : Toml) (rest : List (String × Toml))
    (k : String) (v : Toml) :
    tupdate ((k1, v1) :: rest) k v =
      (if k1 = k then (k, v) else (k1, v1)) :: tupdate rest k v := by
  by_cases heq : k1 = k <;> simp [tupdate, heq]

theorem tremove_cons (k1 : String) (v1 : Toml) (rest : List (String × Toml)) (k : String) :
    tremove ((k1, v1) :: rest) k =
      if k1 = k then tremove rest k else (k1, v1) :: tremove rest k := by
  by_cases heq : k1 = k <;> simp [tremove, List.filter_cons, heq]

theorem tinsert_cons (k1 : String) (v1 : Toml) (rest : List (String × Toml))
    (k : String) (v : Toml) :
    tinsert ((k1, v1) :: rest) k v =
      if k < k1 then (k, v) :: (k1, v1) :: rest
      else if k = k1 then (k, v) :: rest
      else (k1, v1) :: tinsert rest k v := rfl

theorem tget_tinsert_self (m : List (String × Toml)) (k : String) (v : Toml) :
    tget (tinsert m k v) k = some v := by
  induction m with
  | nil => simp [tinsert, tget]
  | cons p rest ih =>
      obtain ⟨k1, v1⟩ := p
      rw [tinsert_cons]
      by_cases hlt : k < k1
      · simp [hlt, tget]
      · by_cases heq : k = k1
        · simp [hlt, heq, tget]
        · have hne : k1 ≠ k := fun h => heq h.symm
          rw [if_neg hlt, if_neg heq, tget_cons, if_neg hne]
          exact ih

theorem tremove_tinsert (m : List (String × Toml)) (k : String) (v : Toml) :
    tremove (tinsert m k v) k = tremove m k := by
  induction m with
  | nil => simp [tinsert, tremove]
  | cons p rest ih =>
      obtain ⟨k1, v1⟩ := p
      rw [tinsert_cons]
      by_cases hlt : k < k1
      · rw [if_pos hlt, tremove_cons, if_pos rfl]
      · by_cases heq : k = k1
        · rw [if_neg hlt, if_pos heq, tremove_cons, if_pos rfl, tremove_cons,
            if_pos heq.symm]
        · have hne : k1 ≠ k := fun h => heq h.symm
          rw [if_neg hlt, if_neg heq, tremove_cons, if_neg hne, tremove_cons,
            if_neg hne, ih]

theorem tget_tupdate_self (m : List (String × Toml)) (k : String) (v w : Toml)
    (h : tget m k = some w) : tget (tupdate m k v) k = some v := by
  induction m with
  | nil => simp [tget] at h
  | cons p rest ih =>
      obtain ⟨k1, v1⟩ := p
      rw [tupdate_cons]
      by_cases heq : k1 = k
      · rw [if_pos heq, tget_cons, if_pos rfl]
      · rw [tget_cons, if_neg heq] at h
        rw [if_neg heq, tget_cons, if_neg heq]
        exact ih h

theorem tremove_tupdate (m : List (String × Toml)) (k : String) (v : Toml) :
    tremove (tupdate m k v) k = tremove m k := by
  induction m with
  | nil => rfl
  | cons p rest ih =>
      obtain ⟨k1, v1⟩ := p
      rw [tupdate_cons]
      by_cases heq : k1 = k
      · rw [if_pos heq, tremove_cons, if_pos rfl, tremove_cons, if_pos heq, ih]
      · rw [if_neg heq, tremove_cons, if_neg heq, tremove_cons, if_neg heq, ih]

theorem tupdate_tupdate (m : List (String × Toml)) (k : String) (v w : Toml) :
    tupdate (tupdate m k v) k w = tupdate m k w := by
  induction m with
  | nil => rfl
  | cons p rest ih =>
      obtain ⟨k1, v1⟩ := p
      rw [tupdate_cons]
      by_cases heq : k1 = k
      · rw [if_pos heq, tupdate_cons, if_pos rfl, tupdate_cons, if_pos heq, ih]
      · rw [if_neg heq, tupdate_cons, if_neg heq, tupdate_cons, if_neg heq, ih]

theorem tremove_of_tget_none (m : List (String × Toml)) (k : String)
    (h : tget m k = none) : tremove m k = m := by
  induction m with
  | nil => rfl
  | cons p rest ih =>
      obtain ⟨k1, v1⟩ := p
      by_cases heq : k1 = k
      · rw [tget_cons, if_pos heq] at h
        exact absurd h (by simp)
      · rw [tget_cons, if_neg heq] at h
        rw [tremove_cons, if_neg heq, ih h]

/-- Stripping after inserting a signature gives the same document as stripping
directly: the inserted block is exactly what stripping removes. -/
theorem stripSignature_setSignature (doc : Toml) (s : PackSignature) (doc2 : Toml)
    (h : setSignature doc s = .ok doc2) :
    stripSignature doc2 = stripSignature doc := by
  match doc with
  | .str v => simp [setSignature] at h
  | .intv v => simp [setSignature] at h
  | .boolv v => simp [setSignature] at h
  | .arr xs => simp [setSignature] at h
  | .table m =>
    match hg : tget m "greentic" with
    | none =>
        simp only [setSignature, hg, Except.ok.injEq] at h
        subst h
        simp only [stripSignature, tget_tinsert_self]
        have h1 : tremove [("signature", sigToToml s)] "signature" = [] := by
          simp [tremove, List.filter]
        simp [h1, tremove_tinsert, tremove_of_tget_none m "greentic" hg, hg]
    | some (.table g) =>
        simp only [setSignature, hg, Except.ok.injEq] at h
        subst h
        simp only [stripSignature,
          tget_tupdate_self m "greentic" _ _ hg, hg, tremove_tinsert]
        by_cases hemp : (tremove g "signature").isEmpty
        · simp [hemp, tremove_tupdate]
        · simp [hemp, tupdate_tupdate]
    | some (.str v) => simp [setSignature, hg] at h
    | some (.intv v) => simp [setSignature, hg] at h
    | some (.boolv v) => simp [setSignature, hg] at h
    | some (.arr xs) => simp [setSignature, hg] at h

/-! Round trip of the timestamp rendering. -/

theorem decDigitVal_digitChar : ∀ d < 10, decDigitVal (Nat.digitChar d) = some d := by
  decide

theorem digitChar_ne_dash : ∀ d < 10, Nat.digitChar d ≠ Char.ofNat 45 := by
  decide

theorem decodeNatChars_map_digitChar (ds : List Nat) (h : ∀ d ∈ ds, d < 10) :
    decodeNatChars (ds.map Nat.digitChar) = some ds := by
  induction ds with
  | nil => rfl
  | cons d rest ih =>
      have hd : d < 10 := h d (List.mem_cons_self d rest)
      have hrest : ∀ x ∈ rest, x < 10 := fun x hx => h x (List.mem_cons_of_mem d hx)
      simp [decodeNatChars, decDigitVal_digitChar d hd, ih hrest]

theorem decodeNatChars_natDecChars (n : Nat) :
    decodeNatChars (natDecChars n) = some (Nat.digits 10 n).reverse := by
  have h : ∀ d ∈ (Nat.digits 10 n).reverse, d < 10 := by
    intro d hd
    exact Nat.digits_lt_base (by norm_num) (List.mem_reverse.mp hd)
  have hmap : natDecChars n = (Nat.digits 10 n).reverse.map Nat.digitChar := by
    simp [natDecChars, digits10_eq_digits, List.map_reverse]
  rw [hmap, decodeNatChars_map_digitChar _ h]

theorem natDecChars_head_ne_dash (n : Nat) (c : Char) (rest : List Char)
    (hd : natDecChars n = c :: rest) : c ≠ Char.ofNat 45 := by
  have hmap : natDecChars n = (Nat.digits 10 n).reverse.map Nat.digitChar := by
    simp [natDecChars, digits10_eq_digits, List.map_reverse]
  rw [hmap] at hd
  match hrev : (Nat.digits 10 n).reverse with
  | [] => rw [hrev] at hd; simp at hd
  | d :: ds =>
      rw [hrev] at hd
      simp only [List.map] at hd
      have hcd : c = Nat.digitChar d := (List.cons.injEq _ _ _ _ ▸ hd).1.symm
      have hdmem : d ∈ Nat.digits 10 n := by
        have : d ∈ (Nat.digits 10 n).reverse := by rw [hrev]; exact List.mem_cons_self d ds
        exact List.mem_reverse.mp this
      have hdlt : d < 10 := Nat.digits_lt_base (by norm_num) hdmem
      rw [hcd]
      exact digitChar_ne_dash d hdlt

theorem decTs_encTs (t : Int) : decTs (encTs t) = some t := by
  by_cases hneg : t < 0
  · have henc : encTs t = ⟨Char.ofNat 45 :: natDecChars (-t).toNat⟩ := by
      simp [encTs, if_pos hneg]
    rw [henc]
    simp only [decTs, if_pos rfl, ite_true, decodeNatChars_natDecChars,
      List.reverse_reverse, Nat.ofDigits_digits, Option.bind_eq_bind,
      Option.some_bind, Option.some.injEq]
    omega
  · have henc : encTs t = ⟨natDecChars t.toNat⟩ := by simp [encTs, if_neg hneg]
    rw [henc]
    match hd : natDecChars t.toNat with
    | [] =>
        have hlen := congrArg List.length hd
        simp only [natDecChars, digits10_eq_digits, List.length_reverse,
          List.length_map, List.length_nil] at hlen
        have h0 : t.toNat = 0 := Nat.digits_eq_nil_iff_eq_zero.mp
          (List.eq_nil_of_length_eq_zero hlen)
        show decTs ⟨[]⟩ = some t
        simp only [decTs, Option.some.injEq]
        omega
    | c :: rest =>
        have hne := natDecChars_head_ne_dash t.toNat c rest hd
        show decTs ⟨c :: rest⟩ = some t
        simp only [decTs, if_neg hne]
        rw [← hd, decodeNatChars_natDecChars]
        simp only [List.reverse_reverse, Nat.ofDigits_digits, Option.bind_eq_bind,
          Option.some_bind, Option.some.injEq]
        omega


/-- Deserializing the serialized signature block returns the signature. -/
theorem sigFromToml_sigToToml (s : PackSignature) : sigFromToml (sigToToml s) = some s := by
  simp [sigFromToml, sigToToml, tget, decTs_encTs]

/-! Round trip of URL-safe unpadded base64. -/

theorem b64Val_b64Char : ∀ v < 64, b64Val (b64Char v) = some v := by
  decide

theorem b64EncVals_lt (bs : List Nat) (h : ∀ b ∈ bs, b < 256) :
    ∀ v ∈ b64EncVals bs, v < 64 := by
  induction bs using b64EncVals.induct with
  | case1 => intro v hv; simp [b64EncVals] at hv
  | case2 b1 =>
      intro v hv
      have hb1 : b1 < 256 := h b1 (by simp)
      simp only [b64EncVals, List.mem_cons, List.mem_singleton] at hv
      rcases hv with rfl | hv
      · omega
      · simp at hv; omega
  | case3 b1 b2 =>
      intro v hv
      have hb1 : b1 < 256 := h b1 (by simp)
      have hb2 : b2 < 256 := h b2 (by simp)
      simp only [b64EncVals, List.mem_cons, List.mem_singleton] at hv
      rcases hv with rfl | rfl | hv
      · omega
      · omega
      · simp at hv; omega
  | case4 b1 b2 b3 rest ih =>
      intro v hv
      have hb1 : b1 < 256 := h b1 (by simp)
      have hb2 : b2 < 256 := h b2 (by simp)
      have hb3 : b3 < 256 := h b3 (by simp)
      have hrest : ∀ b ∈ rest, b < 256 := fun b hb => h b (by simp [hb])
      simp only [b64EncVals, List.mem_cons] at hv
      rcases hv with rfl | rfl | rfl | rfl | hv
      · omega
      · omega
      · omega
      · omega
      · exact ih hrest v hv

theorem b64ValsOfChars_map_b64Char (vs : List Nat) (h : ∀ v ∈ vs, v < 64) :
    b64ValsOfChars (vs.map b64Char) = .ok vs := by
  induction vs with
  | nil => rfl
  | cons v rest ih =>
      have hv : v < 64 := h v (by simp)
      have hrest : ∀ x ∈ rest, x < 64 := fun x hx => h x (by simp [hx])
      simp only [List.map_cons, b64ValsOfChars, b64Val_b64Char v hv, ih hrest]

theorem b64DecChunks_b64EncVals (bs : List Nat) (h : ∀ b ∈ bs, b < 256) :
    b64DecChunks (b64EncVals bs) = .ok bs := by
  induction bs using b64EncVals.induct with
  | case1 => rfl
  | case2 b1 =>
      have hb1 : b1 < 256 := h b1 (by simp)
      simp only [b64EncVals, b64DecChunks]
      rw [if_pos (by omega)]
      simp only [Except.ok.injEq, List.cons.injEq, and_true]
      omega
  | case3 b1 b2 =>
      have hb1 : b1 < 256 := h b1 (by simp)
      have hb2 : b2 < 256 := h b2 (by simp)
      simp only [b64EncVals, b64DecChunks]
      rw [if_pos (by omega)]
      simp only [Except.ok.injEq, List.cons.injEq, and_true]
      constructor
      · omega
      · omega
  | case4 b1 b2 b3 rest ih =>
      have hb1 : b1 < 256 := h b1 (by simp)
      have hb2 : b2 < 256 := h b2 (by simp)
      have hb3 : b3 < 256 := h b3 (by simp)
      have hrest : ∀ b ∈ rest, b < 256 := fun b hb => h b (by simp [hb])
      simp only [b64EncVals, b64DecChunks, ih hrest, Except.ok.injEq, List.cons.injEq,
        and_true]
      refine ⟨by omega, by omega, by omega⟩

theorem length_b64EncVals_mod (bs : List Nat) : (b64EncVals bs).length % 4 ≠ 1 := by
  induction bs using b64EncVals.induct with
  | case1 => simp [b64EncVals]
  | case2 b1 => simp [b64EncVals]
  | case3 b1 b2 => simp [b64EncVals]
  | case4 b1 b2 b3 rest ih =>
      simp only [b64EncVals, List.length_cons] at *
      omega

/-- Decoding an encoding returns the original bytes. -/
theorem b64urlDecode_b64urlEncode (bs : List Nat) (h : ∀ b ∈ bs, b < 256) :
    b64urlDecode (b64urlEncode bs) = .ok bs := by
  have hdata : (b64urlEncode bs).data = (b64EncVals bs).map b64Char := rfl
  simp only [b64urlDecode, hdata, List.length_map]
  rw [if_neg (length_b64EncVals_mod bs)]
  rw [b64ValsOfChars_map_b64Char _ (b64EncVals_lt bs h)]
  exact b64DecChunks_b64EncVals bs h

/-! Further base64 lemmas used for the signature-corruption scenarios. -/

theorem b64ValsOfChars_take (cs : List Char) (vs : List Nat)
    (h : b64ValsOfChars cs = .ok vs) (m : Nat) :
    b64ValsOfChars (cs.take m) = .ok (vs.take m) := by
  induction cs generalizing vs m with
  | nil =>
      simp only [b64ValsOfChars, Except.ok.injEq] at h
      subst h
      simp [b64ValsOfChars, List.take_nil]
  | cons c rest ih =>
      match hv : b64Val c with
      | none => simp [b64ValsOfChars, hv] at h
      | some v =>
          simp only [b64ValsOfChars, hv] at h
          match hrest : b64ValsOfChars rest with
          | .error e => simp [hrest] at h
          | .ok t =>
              simp only [hrest, Except.ok.injEq] at h
              subst h
              match m with
              | 0 => simp [b64ValsOfChars]
              | m + 1 =>
                  simp [List.take_succ_cons, b64ValsOfChars, hv, ih t hrest m]

theorem length_b64ValsOfChars (cs : List Char) (vs : List Nat)
    (h : b64ValsOfChars cs = .ok vs) : vs.length = cs.length := by
  induction cs generalizing vs with
  | nil =>
      simp only [b64ValsOfChars, Except.ok.injEq] at h
      subst h; rfl
  | cons c rest ih =>
      match hv : b64Val c with
      | none => simp [b64ValsOfChars, hv] at h
      | some v =>
          simp only [b64ValsOfChars, hv] at h
          match hrest : b64ValsOfChars rest with
          | .error e => simp [hrest] at h
          | .ok t =>
              simp only [hrest, Except.ok.injEq] at h
              subst h
              simp [List.length_cons, ih t hrest]

theorem b64DecChunks_full_groups :
    ∀ (vs : List Nat), vs.length % 4 = 0 →
      ∃ bs, b64DecChunks vs = .ok bs ∧ bs.length = 3 * (vs.length / 4)
  | [], _ => ⟨[], rfl, rfl⟩
  | [c1], h => by simp at h
  | [c1, c2], h => by simp at h
  | [c1, c2, c3], h => by simp at h
  | c1 :: c2 :: c3 :: c4 :: rest, h => by
      have hr : rest.length % 4 = 0 := by
        simp only [List.length_cons] at h
        omega
      obtain ⟨bs, hbs, hlen⟩ := b64DecChunks_full_groups rest hr
      refine ⟨(c1 * 4 + c2 / 16) :: (c2 % 16 * 16 + c3 / 4) :: (c3 % 4 * 64 + c4) :: bs,
        ?_, ?_⟩
      · simp only [b64DecChunks, hbs]
      · simp only [List.length_cons, hlen]
        omega

theorem b64ValsOfChars_error_of_mem (cs : List Char) (c : Char)
    (hmem : c ∈ cs) (hval : b64Val c = none) :
    b64ValsOfChars cs = .error .invalidByte := by
  induction cs with
  | nil => simp at hmem
  | cons c1 rest ih =>
      match hv : b64Val c1 with
      | none => simp [b64ValsOfChars, hv]
      | some v =>
          have hcr : c ∈ rest := by
            rcases List.mem_cons.mp hmem with rfl | hr
            · rw [hval] at hv; exact absurd hv (by simp)
            · exact hr
          simp [b64ValsOfChars, hv, ih hcr]

theorem b64urlDecode_ok_inv (s : String) (raw : List Nat)
    (h : b64urlDecode s = .ok raw) :
    ∃ vs, b64ValsOfChars s.data = .ok vs ∧ b64DecChunks vs = .ok raw ∧
      s.data.length % 4 ≠ 1 := by
  by_cases hlen : s.data.length % 4 = 1
  · unfold b64urlDecode at h
    rw [if_pos hlen] at h
    exact absurd h (by simp)
  · unfold b64urlDecode at h
    rw [if_neg hlen] at h
    match hvs : b64ValsOfChars s.data with
    | .error e =>
        rw [hvs] at h
        exact absurd h (by simp)
    | .ok vs =>
        rw [hvs] at h
        exact ⟨vs, rfl, h, hlen⟩

/-- Decoding any prefix of a successfully decoded string whose length is a
multiple of four succeeds, producing three bytes for each four characters. -/
theorem b64urlDecode_take (s : String) (raw : List Nat) (m : Nat)
    (h : b64urlDecode s = .ok raw) (hm : m % 4 = 0) (hle : m ≤ s.data.length) :
    ∃ bs, b64urlDecode ⟨s.data.take m⟩ = .ok bs ∧ bs.length = 3 * (m / 4) := by
  obtain ⟨vs, hvs, hchunks, hlen⟩ := b64urlDecode_ok_inv s raw h
  have hvslen := length_b64ValsOfChars _ _ hvs
  have htake := b64ValsOfChars_take _ _ hvs m
  have htlen : (vs.take m).length = m := by
    simp [List.length_take]
    omega
  obtain ⟨bs, hbs, hbslen⟩ := b64DecChunks_full_groups (vs.take m) (by rw [htlen]; exact hm)
  refine ⟨bs, ?_, by rw [hbslen, htlen]⟩
  have hdata : (String.mk (s.data.take m)).data = s.data.take m := rfl
  have hdlen : (s.data.take m).length % 4 ≠ 1 := by
    simp only [List.length_take]
    omega
  simp only [b64urlDecode, hdata, if_neg hdlen, htake]
  exact hbs

/-- A string containing a character outside the URL-safe alphabet never
decodes. -/
theorem b64urlDecode_error_of_invalid_char (s : String) (c : Char)
    (hmem : c ∈ s.data) (hval : b64Val c = none) :
    ∃ e, b64urlDecode s = .error e := by
  by_cases hlen : s.data.length % 4 = 1
  · refine ⟨.invalidLength, ?_⟩
    unfold b64urlDecode
    rw [if_pos hlen]
  · refine ⟨.invalidByte, ?_⟩
    unfold b64urlDecode
    rw [if_neg hlen, b64ValsOfChars_error_of_mem s.data c hmem hval]

/-! Sorting lemmas for the canonical entry order. -/

theorem char_eq_of_toNat_eq {a b : Char} (h : a.toNat = b.toNat) : a = b :=
  Char.ext (UInt32.ext h)

theorem charsLeB_cons_iff (a b : Char) (as bs : List Char) :
    charsLeB (a :: as) (b :: bs) = true ↔
      (a.toNat < b.toNat ∨ (a = b ∧ charsLeB as bs = true)) := by
  by_cases h1 : a.toNat < b.toNat
  · simp [charsLeB, h1]
  · by_cases h2 : a = b
    · simp [charsLeB, h1, h2]
    · simp [charsLeB, h1, h2]

theorem charsLeB_trans :
    ∀ (x y z : List Char), charsLeB x y = true → charsLeB y z = true →
      charsLeB x z = true
  | [], _, _, _, _ => rfl
  | a :: as, [], _, hxy, _ => by simp [charsLeB] at hxy
  | a :: as, b :: bs, [], _, hyz => by simp [charsLeB] at hyz
  | a :: as, b :: bs, c :: cs, hxy, hyz => by
      rw [charsLeB_cons_iff] at hxy hyz ⊢
      rcases hxy with h1 | ⟨rfl, h1⟩
      · rcases hyz with h2 | ⟨rfl, h2⟩
        · exact Or.inl (by omega)
        · exact Or.inl h1
      · rcases hyz with h2 | ⟨rfl, h2⟩
        · exact Or.inl h2
        · exact Or.inr ⟨rfl, charsLeB_trans as bs cs h1 h2⟩

theorem charsLeB_total :
    ∀ (x y : List Char), charsLeB x y = true ∨ charsLeB y x = true
  | [], _ => Or.inl rfl
  | _ :: _, [] => Or.inr rfl
  | a :: as, b :: bs => by
      rw [charsLeB_cons_iff, charsLeB_cons_iff]
      by_cases h1 : a.toNat < b.toNat
      · exact Or.inl (Or.inl h1)
      · by_cases h2 : b.toNat < a.toNat
        · exact Or.inr (Or.inl h2)
        · have hab : a = b := char_eq_of_toNat_eq (by omega)
          subst hab
          rcases charsLeB_total as bs with h | h
          · exact Or.inl (Or.inr ⟨rfl, h⟩)
          · exact Or.inr (Or.inr ⟨rfl, h⟩)

theorem charsLeB_antisymm :
    ∀ (x y : List Char), charsLeB x y = true → charsLeB y x = true → x = y
  | [], [], _, _ => rfl
  | [], _ :: _, _, hyx => by simp [charsLeB] at hyx
  | _ :: _, [], hxy, _ => by simp [charsLeB] at hxy
  | a :: as, b :: bs, hxy, hyx => by
      rw [charsLeB_cons_iff] at hxy hyx
      rcases hxy with h1 | ⟨rfl, h1⟩
      · rcases hyx with h2 | ⟨rfl, h2⟩
        · omega
        · omega
      · rcases hyx with h2 | ⟨heq, h2⟩
        · omega
        · rw [charsLeB_antisymm as bs h1 h2]

instance : IsTrans CanonicalEntry entryRel :=
  ⟨fun a b c => charsLeB_trans a.rel_path.data b.rel_path.data c.rel_path.data⟩

instance : IsTotal CanonicalEntry entryRel :=
  ⟨fun a b => charsLeB_total a.rel_path.data b.rel_path.data⟩

theorem rel_path_eq_of_entryRel_antisymm {a b : CanonicalEntry}
    (h1 : entryRel a b) (h2 : entryRel b a) : a.rel_path = b.rel_path := by
  have := charsLeB_antisymm a.rel_path.data b.rel_path.data h1 h2
  cases ha : a.rel_path
  cases hb : b.rel_path
  rw [ha, hb] at this
  exact congrArg String.mk this

/-- Two sorted permutations of each other with pairwise-distinct paths are
equal: the sorted order is determined by the set of entries. -/
theorem perm_sorted_eq :
    ∀ (l1 l2 : List CanonicalEntry), l1.Perm l2 →
      l1.Pairwise entryRel →
      l2.Pairwise entryRel →
      (l1.map CanonicalEntry.rel_path).Nodup → l1 = l2 := by
  intro l1
  induction l1 with
  | nil =>
      intro l2 hp _ _ _
      exact (List.Perm.nil_eq hp)
  | cons a t1 ih =>
      intro l2 hp hs1 hs2 hnd
      cases l2 with
      | nil => exact absurd hp.eq_nil (by simp)
      | cons b t2 =>
          by_cases hab : a = b
          · subst hab
            have hp2 : t1.Perm t2 := hp.cons_inv
            have hnd2 : (t1.map CanonicalEntry.rel_path).Nodup := by
              simp only [List.map_cons, List.nodup_cons] at hnd
              exact hnd.2
            rw [ih t2 hp2 (List.Pairwise.of_cons hs1) (List.Pairwise.of_cons hs2) hnd2]
          · exfalso
            have hamem : a ∈ t2 := by
              have := hp.subset (List.mem_cons_self a t1)
              rcases List.mem_cons.mp this with h | h
              · exact absurd h hab
              · exact h
            have hbmem : b ∈ t1 := by
              have := hp.symm.subset (List.mem_cons_self b t2)
              rcases List.mem_cons.mp this with h | h
              · exact absurd h.symm hab
              · exact h
            have hle1 : entryRel a b := (List.pairwise_cons.mp hs1).1 b hbmem
            have hle2 : entryRel b a := (List.pairwise_cons.mp hs2).1 a hamem
            have heq : a.rel_path = b.rel_path :=
              rel_path_eq_of_entryRel_antisymm hle1 hle2
            simp only [List.map_cons, List.nodup_cons] at hnd
            exact hnd.1 (heq ▸ List.mem_map_of_mem CanonicalEntry.rel_path hbmem)

/-! The canonical buffer as a concatenation over the sorted entries. -/

/-- Concatenation of entry encodings, as the specification describes the
canonical buffer. -/
def concatEntryBytes : List CanonicalEntry → List Nat
  | [] => []
  | e :: rest => entryBytes e ++ concatEntryBytes rest

theorem foldl_append_entryBytes (l : List CanonicalEntry) :
    ∀ (init : List Nat),
      l.foldl (fun buf e => buf ++ entryBytes e) init = init ++ concatEntryBytes l := by
  induction l with
  | nil => intro init; simp [concatEntryBytes]
  | cons e rest ih =>
      intro init
      simp only [List.foldl_cons, concatEntryBytes, ih, List.append_assoc]

/-- The imperative buffer-building loop concatenates the entry encodings. -/
theorem buildBuffer_eq (l : List CanonicalEntry) : buildBuffer l = concatEntryBytes l := by
  simpa using foldl_append_entryBytes l []

/-! Effect of writing the signature block on the directory state. -/

theorem isPackManifestPath_root (name : String) (hname : name ∈ manifestCandidates) :
    isPackManifestPath (manifestRootComps name) = true := by
  simp only [isPackManifestPath, manifestRootComps, fileNameStr, lastComp]
  simp only [List.any_eq_true, decide_eq_true_eq]
  exact ⟨name, hname, rfl⟩

theorem loadManifestValue_ok_inv (d : Dir) (name : String) (doc : Toml)
    (h : loadManifestValue d name = .ok doc) :
    d.rootFiles.lookup name = some (some doc) := by
  unfold loadManifestValue at h
  match hl : d.rootFiles.lookup name with
  | some (some doc2) => rw [hl] at h; cases h; rfl
  | some none => rw [hl] at h; cases h
  | none => rw [hl] at h; cases h

theorem writeSignature_inv (ext : Ext) (d : Dir) (s : PackSignature) (d2 : Dir)
    (hw : writeSignature ext d s = .ok d2) :
    ∃ name doc newDoc,
      findManifestName d = some name ∧
      d.rootFiles.lookup name = some (some doc) ∧
      setSignature doc s = .ok newDoc ∧
      d2 = { walked := d.walked.map (updWalk ext name newDoc),
             rootFiles := d.rootFiles.map (updRoot name (some newDoc)) } := by
  unfold writeSignature at hw
  match hf : findManifestName d with
  | none => simp [hf] at hw
  | some name =>
      simp only [hf] at hw
      match hl : loadManifestValue d name with
      | .error e => simp [hl] at hw
      | .ok doc =>
          simp only [hl] at hw
          match hs : setSignature doc s with
          | .error e => simp [hs] at hw
          | .ok newDoc =>
              simp only [hs, Except.ok.injEq] at hw
              exact ⟨name, doc, newDoc, rfl, loadManifestValue_ok_inv d name doc hl,
                hs, hw.symm⟩

theorem processEntry_writeUpd (ext : Ext) (name : String) (doc newDoc : Toml)
    (hname : name ∈ manifestCandidates)
    (hstrip : stripSignature newDoc = stripSignature doc)
    (e : WalkEntry)
    (hcons : e.comps = manifestRootComps name → e.asToml = some doc) :
    processEntry ext (updWalk ext name newDoc e) = processEntry ext e := by
  unfold updWalk
  by_cases hm : e.comps = manifestRootComps name
  · rw [if_pos hm]
    have hdoc := hcons hm
    show processEntry ext ⟨e.depth, e.fileType, e.comps, ext.serPretty newDoc,
      some newDoc⟩ = processEntry ext e
    unfold processEntry
    by_cases hd : e.depth = 0
    · simp [hd]
    · rw [if_neg hd, if_neg hd]
      match e.fileType with
      | none => rfl
      | some true => rfl
      | some false =>
          by_cases hsk : shouldSkip e.comps
          · simp [hsk]
          · rw [if_neg hsk, if_neg hsk]
            match normalizePath e.comps with
            | none => rfl
            | some rel =>
                have hman : isPackManifestPath e.comps = true := by
                  rw [hm]; exact isPackManifestPath_root name hname
                rw [hman]
                simp only [if_pos rfl, ite_true, readManifestWithoutSignatureBytes,
                  hdoc, hstrip]
  · rw [if_neg hm]

theorem collectEntries_writeUpd (ext : Ext) (name : String) (doc newDoc : Toml)
    (hname : name ∈ manifestCandidates)
    (hstrip : stripSignature newDoc = stripSignature doc) :
    ∀ (w : List WalkEntry),
      (∀ e ∈ w, e.comps = manifestRootComps name → e.asToml = some doc) →
      collectEntries ext (w.map (updWalk ext name newDoc)) = collectEntries ext w := by
  intro w
  induction w with
  | nil => intro _; rfl
  | cons e rest ih =>
      intro hcons
      have he := processEntry_writeUpd ext name doc newDoc hname hstrip e
        (hcons e (List.mem_cons_self e rest))
      have hr := ih (fun x hx => hcons x (List.mem_cons_of_mem e hx))
      simp only [List.map_cons, collectEntries, he, hr]

/-- Writing the signature block does not change the canonical result: the
manifest is hashed with the signature stripped on both sides. -/
theorem canonicalize_writeSignature (ext : Ext) (d : Dir) (s : PackSignature) (d2 : Dir)
    (hw : writeSignature ext d s = .ok d2)
    (name : String) (doc : Toml)
    (hf : findManifestName d = some name)
    (hl : d.rootFiles.lookup name = some (some doc))
    (hcons : ∀ e ∈ d.walked, e.comps = manifestRootComps name → e.asToml = some doc) :
    canonicalizePackDir ext d2 = canonicalizePackDir ext d := by
  obtain ⟨name2, doc2, newDoc, hf2, hl2, hset, hd2⟩ := writeSignature_inv ext d s d2 hw
  rw [hf] at hf2
  cases hf2
  rw [hl] at hl2
  cases hl2
  have hname : name ∈ manifestCandidates := by
    have := List.find?_some hf
    exact List.mem_of_find?_eq_some hf
  have hstrip := stripSignature_setSignature doc s newDoc hset
  have hcoll := collectEntries_writeUpd ext name doc newDoc hname hstrip d.walked hcons
  have hw2 : d2.walked = d.walked.map (updWalk ext name newDoc) := by rw [hd2]
  unfold canonicalizePackDir
  rw [hw2, hcoll]

theorem updRoot_pair (name : String) (v : Option Toml) (k1 : String) (w : Option Toml) :
    updRoot name v (k1, w) = if k1 = name then (k1, v) else (k1, w) := rfl

theorem lookup_cons_eq (n k : String) (v : Option Toml)
    (rest : List (String × Option Toml)) (h : (n == k) = true) :
    List.lookup n ((k, v) :: rest) = some v := by
  simp [List.lookup, h]

theorem lookup_cons_ne (n k : String) (v : Option Toml)
    (rest : List (String × Option Toml)) (h : (n == k) = false) :
    List.lookup n ((k, v) :: rest) = List.lookup n rest := by
  simp [List.lookup, h]

theorem lookup_mapUpd_isSome (rf : List (String × Option Toml)) (name : String)
    (v : Option Toml) (n : String) :
    ((rf.map (updRoot name v)).lookup n).isSome = (rf.lookup n).isSome := by
  induction rf with
  | nil => rfl
  | cons p rest ih =>
      obtain ⟨k1, w⟩ := p
      rw [List.map_cons, updRoot_pair]
      by_cases hn : n = k1
      · have hb : (n == k1) = true := by simp [hn]
        by_cases hk : k1 = name
        · rw [if_pos hk, lookup_cons_eq _ _ _ _ hb, lookup_cons_eq _ _ _ _ hb]
          rfl
        · rw [if_neg hk, lookup_cons_eq _ _ _ _ hb, lookup_cons_eq _ _ _ _ hb]
      · have hb : (n == k1) = false := by simp [hn]
        by_cases hk : k1 = name
        · rw [if_pos hk, lookup_cons_ne _ _ _ _ hb, lookup_cons_ne _ _ _ _ hb]
          exact ih
        · rw [if_neg hk, lookup_cons_ne _ _ _ _ hb, lookup_cons_ne _ _ _ _ hb]
          exact ih

theorem lookup_mapUpd_self (rf : List (String × Option Toml)) (name : String)
    (v : Option Toml) (h : (rf.lookup name).isSome = true) :
    (rf.map (updRoot name v)).lookup name = some v := by
  induction rf with
  | nil => simp [List.lookup] at h
  | cons p rest ih =>
      obtain ⟨k1, w⟩ := p
      rw [List.map_cons, updRoot_pair]
      by_cases hk : k1 = name
      · have hb : (name == k1) = true := by simp [hk]
        rw [if_pos hk, lookup_cons_eq _ _ _ _ hb]
      · have hn : ¬name = k1 := fun hx => hk hx.symm
        have hb : (name == k1) = false := by simp [hn]
        rw [lookup_cons_ne _ _ _ _ hb] at h
        rw [if_neg hk, lookup_cons_ne _ _ _ _ hb]
        exact ih h

theorem find?_congr_pred (l : List String) (p q : String → Bool)
    (h : ∀ a ∈ l, p a = q a) : l.find? p = l.find? q := by
  induction l with
  | nil => rfl
  | cons a rest ih =>
      have ha := h a (List.mem_cons_self a rest)
      by_cases hp : p a = true
      · rw [List.find?_cons_of_pos _ hp, List.find?_cons_of_pos _ (ha ▸ hp)]
      · rw [List.find?_cons_of_neg _ hp,
          List.find?_cons_of_neg _ (by rw [← ha]; exact hp),
          ih (fun x hx => h x (List.mem_cons_of_mem a hx))]

theorem signatureFromDoc_setSignature (doc : Toml) (s : PackSignature) (newDoc : Toml)
    (hs : setSignature doc s = .ok newDoc) :
    signatureFromDoc newDoc = .ok (some s) := by
  match doc with
  | .str v => simp [setSignature] at hs
  | .intv v => simp [setSignature] at hs
  | .boolv v => simp [setSignature] at hs
  | .arr xs => simp [setSignature] at hs
  | .table m =>
    match hg : tget m "greentic" with
    | none =>
        simp only [setSignature, hg, Except.ok.injEq] at hs
        subst hs
        simp only [signatureFromDoc, tget_tinsert_self]
        rw [show tget [("signature", sigToToml s)] "signature" = some (sigToToml s) by
          simp [tget]]
        simp [sigFromToml_sigToToml]
    | some (.table g) =>
        simp only [setSignature, hg, Except.ok.injEq] at hs
        subst hs
        simp only [signatureFromDoc, tget_tupdate_self m "greentic" _ _ hg,
          tget_tinsert_self]
        simp [sigFromToml_sigToToml]
    | some (.str v) => simp [setSignature, hg] at hs
    | some (.intv v) => simp [setSignature, hg] at hs
    | some (.boolv v) => simp [setSignature, hg] at hs
    | some (.arr xs) => simp [setSignature, hg] at hs

/-- After writing a signature in place, reading it back returns exactly the
written signature. -/
theorem readSignature_writeSignature (ext : Ext) (d : Dir) (s : PackSignature) (d2 : Dir)
    (hw : writeSignature ext d s = .ok d2) : readSignature d2 = .ok (some s) := by
  obtain ⟨name, doc, newDoc, hf, hl, hset, hd2⟩ := writeSignature_inv ext d s d2 hw
  have hrf : d2.rootFiles = d.rootFiles.map (updRoot name (some newDoc)) := by rw [hd2]
  have hfind2 : findManifestName d2 = some name := by
    unfold findManifestName at hf ⊢
    rw [hrf]
    rw [find?_congr_pred manifestCandidates _ _
      (fun a _ => lookup_mapUpd_isSome d.rootFiles name (some newDoc) a)]
    exact hf
  have hload2 : loadManifestValue d2 name = .ok newDoc := by
    unfold loadManifestValue
    rw [hrf, lookup_mapUpd_self d.rootFiles name (some newDoc) (by rw [hl]; rfl)]
  unfold readSignature
  simp only [hfind2, hload2]
  exact signatureFromDoc_setSignature doc s newDoc hset

/-! Claim theorems. -/

/-- C4: stripping the signature is idempotent across a write: for any manifest
document, the bytes of "content without signature" after inserting any
signature block equal the bytes of "content without signature" before,
whether or not a signature block was present initially. -/
theorem strip_after_write_signature (ext : Ext) (doc doc2 : Toml) (s : PackSignature)
    (hset : setSignature doc s = .ok doc2) :
    readManifestWithoutSignatureBytes ext (some doc2) =
      readManifestWithoutSignatureBytes ext (some doc) := by
  simp only [readManifestWithoutSignatureBytes,
    stripSignature_setSignature doc s doc2 hset]

/-- C5: a pack whose manifest carries no signature block verifies to the
sentinel unsigned signature (algorithm "none", key id "unsigned", epoch
timestamp, empty signature, fresh digest) when unsigned packs are allowed,
and fails with MissingSignature otherwise. -/
theorem verify_unsigned_handling (c : Crypto) (ext : Ext) (d : Dir)
    (cp : CanonicalizedPack) (pk : Option String)
    (hc : canonicalizePackDir ext d = .ok cp)
    (hr : readSignature d = .ok none) :
    verifyPack c ext d ⟨pk, true⟩ =
      .ok ⟨"none", "unsigned", 0, "sha256:" ++ cp.digest_hex, ""⟩ ∧
    verifyPack c ext d ⟨pk, false⟩ = .error .MissingSignature := by
  unfold verifyPack
  simp only [hc, hr]
  exact ⟨rfl, rfl⟩

/-- C10: a directory with no recognized manifest reads as "no signature
present" (not an error), so verification accepts it with the sentinel when
unsigned packs are allowed and fails with MissingSignature (not a
manifest-not-found error) otherwise. -/
theorem verify_manifestless_directory (c : Crypto) (ext : Ext) (d : Dir)
    (cp : CanonicalizedPack) (pk : Option String)
    (hnone : findManifestName d = none)
    (hc : canonicalizePackDir ext d = .ok cp) :
    readSignature d = .ok none ∧
    verifyPack c ext d ⟨pk, true⟩ =
      .ok ⟨"none", "unsigned", 0, "sha256:" ++ cp.digest_hex, ""⟩ ∧
    verifyPack c ext d ⟨pk, false⟩ = .error .MissingSignature := by
  have hr : readSignature d = .ok none := by
    unfold readSignature
    simp only [hnone]
  refine ⟨hr, ?_, ?_⟩
  · unfold verifyPack
    simp only [hc, hr, ite_true]
  · unfold verifyPack
    simp only [hc, hr]
    rfl

/-- C6: with a stored ed25519 signature whose digest differs from the
recomputed one, verification fails with DigestMismatch carrying the stored
and computed values, for every choice of crypto backend and options - in
particular before any key handling. -/
theorem verify_digest_precedence (c : Crypto) (ext : Ext) (d : Dir)
    (opts : VerifyOptions) (cp : CanonicalizedPack) (s : PackSignature)
    (hc : canonicalizePackDir ext d = .ok cp)
    (hr : readSignature d = .ok (some s))
    (halg : eqIgnoreAsciiCase s.alg "ed25519" = true)
    (hdig : s.digest ≠ "sha256:" ++ cp.digest_hex) :
    verifyPack c ext d opts =
      .error (.DigestMismatch s.digest ("sha256:" ++ cp.digest_hex)) := by
  unfold verifyPack
  simp only [hc, hr, halg, Bool.not_true, Bool.false_eq_true, if_false, if_pos hdig]

theorem processEntry_skip (ext : Ext) (e : WalkEntry)
    (h : shouldSkip e.comps = true) : processEntry ext e = .ok none := by
  unfold processEntry
  by_cases hd : e.depth = 0
  · simp [hd]
  · rw [if_neg hd]
    match e.fileType with
    | none => rfl
    | some true => rfl
    | some false => rw [if_pos h]

theorem collectEntries_filter_skip (ext : Ext) :
    ∀ w : List WalkEntry,
      collectEntries ext (w.filter (fun e => !shouldSkip e.comps)) =
        collectEntries ext w := by
  intro w
  induction w with
  | nil => rfl
  | cons e rest ih =>
      by_cases hsk : shouldSkip e.comps = true
      · have hf : (fun e => !shouldSkip e.comps) e = false := by simp [hsk]
        rw [List.filter_cons_of_neg (by simp [hsk]), ih]
        show collectEntries ext rest = collectEntries ext (e :: rest)
        simp only [collectEntries, processEntry_skip ext e hsk]
        match collectEntries ext rest with
        | .error err => rfl
        | .ok t => rfl
      · rw [List.filter_cons_of_pos (by simp [hsk])]
        simp only [collectEntries, ih]

/-- C9: the built-in skip rules are absolute: a path with a `.git` or
`target` segment or a `.DS_Store` filename is always skipped, and the
canonical result of any walk equals the canonical result of the same walk
with all built-in-skipped entries removed - whatever entries the
`.packignore`-filtered walker produced. -/
theorem builtin_skips_absolute :
    (∀ p : List PComp,
      ((∃ comp ∈ p, comp = PComp.normal (some ".git") ∨
          comp = PComp.normal (some "target")) ∨
        fileNameStr p = some ".DS_Store") → shouldSkip p = true) ∧
    (∀ (ext : Ext) (w : List WalkEntry) (rf : List (String × Option Toml)),
      canonicalizePackDir ext ⟨w, rf⟩ =
        canonicalizePackDir ext ⟨w.filter (fun e => !shouldSkip e.comps), rf⟩) := by
  constructor
  · intro p h
    unfold shouldSkip
    rcases h with ⟨comp, hmem, hcomp⟩ | hds
    · have : p.any isSkipSeg = true := by
        rw [List.any_eq_true]
        refine ⟨comp, hmem, ?_⟩
        rcases hcomp with rfl | rfl <;> simp [isSkipSeg]
      simp [this]
    · simp [hds]
  · intro ext w rf
    unfold canonicalizePackDir
    rw [show (Dir.mk w rf).walked = w from rfl,
      show (Dir.mk (w.filter (fun e => !shouldSkip e.comps)) rf).walked =
        w.filter (fun e => !shouldSkip e.comps) from rfl,
      collectEntries_filter_skip ext w]

theorem normalizePath_none_iff_segs (p : List PComp) :
    normalizePath p = none ↔ normalizeSegs p = none := by
  unfold normalizePath
  match normalizeSegs p with
  | none => simp
  | some segs => simp

/-- C8: path normalization uses `/` as separator and fails exactly when a
segment is not valid Unicode or the path has a non-relative component; the
canonicalization loop turns exactly that failure on a tracked file into the
path-encoding error. -/
theorem path_encoding_failure :
    (∀ p : List PComp, normalizePath p = none ↔
      ∃ comp ∈ p, comp = PComp.normal none ∨ comp = PComp.rootDir ∨
        comp = PComp.drivePfx) ∧
    (∀ (p : List PComp) (segs : List String), normalizeSegs p = some segs →
      normalizePath p = some (String.intercalate "/" segs)) ∧
    (∀ (ext : Ext) (e : WalkEntry),
      processEntry ext e = .error .pathNotUtf8 ↔
        (e.depth ≠ 0 ∧ e.fileType = some false ∧ shouldSkip e.comps = false ∧
          normalizePath e.comps = none)) := by
  refine ⟨?_, ?_, ?_⟩
  · intro p
    rw [normalizePath_none_iff_segs]
    induction p with
    | nil => simp [normalizeSegs]
    | cons comp rest ih =>
        match comp with
        | PComp.normal none => simp [normalizeSegs]
        | PComp.normal (some s) =>
            simp only [normalizeSegs, Option.some_bind]
            constructor
            · intro h
              have : normalizeSegs rest = none := by
                match hr : normalizeSegs rest with
                | none => rfl
                | some t => rw [hr] at h; simp at h
              obtain ⟨comp2, hm, hc⟩ := ih.mp this
              exact ⟨comp2, List.mem_cons_of_mem _ hm, hc⟩
            · intro ⟨comp2, hm, hc⟩
              rcases List.mem_cons.mp hm with rfl | hm2
              · rcases hc with h | h | h <;> simp at h
              · rw [ih.mpr ⟨comp2, hm2, hc⟩]
                rfl
        | PComp.curDir =>
            simp only [normalizeSegs]
            rw [ih]
            constructor
            · intro ⟨comp2, hm, hc⟩
              exact ⟨comp2, List.mem_cons_of_mem _ hm, hc⟩
            · intro ⟨comp2, hm, hc⟩
              rcases List.mem_cons.mp hm with rfl | hm2
              · rcases hc with h | h | h <;> simp at h
              · exact ⟨comp2, hm2, hc⟩
        | PComp.parentDir =>
            simp only [normalizeSegs]
            constructor
            · intro h
              have hr : normalizeSegs rest = none := by
                match hx : normalizeSegs rest with
                | none => rfl
                | some t => rw [hx] at h; simp at h
              obtain ⟨comp2, hm, hc⟩ := ih.mp hr
              exact ⟨comp2, List.mem_cons_of_mem _ hm, hc⟩
            · intro ⟨comp2, hm, hc⟩
              rcases List.mem_cons.mp hm with rfl | hm2
              · rcases hc with h | h | h <;> simp at h
              · rw [ih.mpr ⟨comp2, hm2, hc⟩]
                rfl
        | PComp.rootDir =>
            simp only [normalizeSegs]
            refine ⟨fun _ => ⟨PComp.rootDir, List.mem_cons_self _ _, by simp⟩, fun _ => ?_⟩
            simp
        | PComp.drivePfx =>
            simp only [normalizeSegs]
            refine ⟨fun _ => ⟨PComp.drivePfx, List.mem_cons_self _ _, by simp⟩, fun _ => ?_⟩
            simp
  · intro p segs h
    unfold normalizePath
    rw [h]
    rfl
  · intro ext e
    unfold processEntry
    by_cases hd : e.depth = 0
    · simp [hd]
    · rw [if_neg hd]
      match e.fileType with
      | none => simp
      | some true => simp
      | some false =>
          by_cases hsk : shouldSkip e.comps
          · simp [hsk]
          · rw [if_neg hsk]
            match normalizePath e.comps with
            | none => simp [hd, hsk]
            | some rel =>
                by_cases hman : isPackManifestPath e.comps = true
                · match e.asToml with
                  | none => simp [hman, readManifestWithoutSignatureBytes]
                  | some doc => simp [hman, readManifestWithoutSignatureBytes]
                · simp [hman]

/-- C2: the canonical buffer is the concatenation, over the collected
(path, content) entries sorted ascending by path, of the textual header
followed by the raw content bytes, and the digest is the lowercase-hex
SHA-256 of exactly that buffer. -/
theorem canonical_buffer_format (ext : Ext) (d : Dir)
    (entries : List CanonicalEntry) (cp : CanonicalizedPack)
    (hcol : collectEntries ext d.walked = .ok entries)
    (hc : canonicalizePackDir ext d = .ok cp) :
    ∃ sorted : List CanonicalEntry,
      sorted.Perm entries ∧
      sorted.Pairwise entryRel ∧
      cp.bytes = concatEntryBytes sorted ∧
      cp.digest_hex = hexEncode (sha256 cp.bytes) := by
  unfold canonicalizePackDir at hc
  simp only [hcol, Except.ok.injEq] at hc
  refine ⟨List.insertionSort entryRel entries, List.perm_insertionSort entryRel entries,
    List.sorted_insertionSort entryRel entries, ?_, ?_⟩
  · rw [← hc, buildBuffer_eq]
  · rw [← hc]

/-- C3: the canonical buffer and digest are a pure function of the set of
collected (path, content) entries: two walks collecting permutations of the
same entries, with pairwise-distinct paths, canonicalize identically. -/
theorem canonicalization_order_independent (ext : Ext) (d1 d2 : Dir)
    (e1 e2 : List CanonicalEntry)
    (h1 : collectEntries ext d1.walked = .ok e1)
    (h2 : collectEntries ext d2.walked = .ok e2)
    (hperm : e1.Perm e2)
    (hnd : (e1.map CanonicalEntry.rel_path).Nodup) :
    canonicalizePackDir ext d1 = canonicalizePackDir ext d2 := by
  have hsortEq : List.insertionSort entryRel e1 = List.insertionSort entryRel e2 := by
    apply perm_sorted_eq
    · exact (List.perm_insertionSort entryRel e1).trans
        (hperm.trans (List.perm_insertionSort entryRel e2).symm)
    · exact List.sorted_insertionSort entryRel e1
    · exact List.sorted_insertionSort entryRel e2
    · have hp : List.Perm
          ((List.insertionSort entryRel e1).map CanonicalEntry.rel_path)
          (e1.map CanonicalEntry.rel_path) :=
        (List.perm_insertionSort entryRel e1).map _
      exact hp.symm.nodup hnd
  unfold canonicalizePackDir
  simp only [h1, h2, hsortEq]

/-- The key id chosen by the signer: the override when given, else derived. -/
def kidOf (kid : Option String) (sk : SigKey) : String :=
  match kid with
  | some v => v
  | none => deriveKeyId sk.pubBytes

theorem signPack_inv (c : Crypto) (ext : Ext) (now : Int) (d : Dir) (pem : String)
    (kid : Option String) (out : SigningOutcome)
    (h : signPack c ext now d pem kid = .ok out) :
    ∃ canonical sk,
      canonicalizePackDir ext d = .ok canonical ∧
      loadSigningKey c pem = some sk ∧
      out.signature = ⟨"ed25519", kidOf kid sk, now,
        "sha256:" ++ canonical.digest_hex, b64urlEncode (sk.sign canonical.bytes)⟩ := by
  unfold signPack at h
  match hc : canonicalizePackDir ext d with
  | .error e => simp [hc] at h
  | .ok canonical =>
      simp only [hc] at h
      match hk : loadSigningKey c pem with
      | none => simp [hk] at h
      | some sk =>
          simp only [hk, Except.ok.injEq] at h
          subst h
          exact ⟨canonical, sk, rfl, rfl, rfl⟩

theorem signPackDir_inv (c : Crypto) (ext : Ext) (now : Int) (d : Dir) (pem : String)
    (kid : Option String) (s : PackSignature) (d2 : Dir)
    (h : signPackDir c ext now d pem kid = .ok (s, d2)) :
    ∃ outcome, signPack c ext now d pem kid = .ok outcome ∧
      outcome.signature = s ∧ writeSignature ext d s = .ok d2 := by
  unfold signPackDir at h
  match hs : signPack c ext now d pem kid with
  | .error e => simp [hs] at h
  | .ok outcome =>
      simp only [hs] at h
      match hw : writeSignature ext d outcome.signature with
      | .error e => simp [hw] at h
      | .ok d2x =>
          simp only [hw, Except.ok.injEq, Prod.mk.injEq] at h
          obtain ⟨h1, h2⟩ := h
          rw [h1] at hw
          rw [h2] at hw
          exact ⟨outcome, rfl, h1, hw⟩

/-- C1: signing a pack directory with a private key and then verifying the
updated directory with the corresponding public key and allow_unsigned set
to false succeeds and returns exactly the signature produced by signing (in
particular its sig and digest fields). -/
theorem sign_then_verify_roundtrip
    (c : Crypto) (ext : Ext) (now : Int) (d : Dir) (priv pub : String)
    (s : PackSignature) (d2 : Dir) (sk : SigKey)
    (hsign : signPackDir c ext now d priv none = .ok (s, d2))
    (hkey : loadSigningKey c priv = some sk)
    (hpub : c.fromPublicKeyPem pub = some sk.pubBytes)
    (hcrypto : ∀ msg, c.edVerify sk.pubBytes msg (sk.sign msg) = true)
    (hlen : ∀ msg, (sk.sign msg).length = 64)
    (hbytes : ∀ msg, ∀ b ∈ sk.sign msg, b < 256)
    (hcons : ∀ name doc, findManifestName d = some name →
      d.rootFiles.lookup name = some (some doc) →
      ∀ e ∈ d.walked, e.comps = manifestRootComps name → e.asToml = some doc) :
    verifyPack c ext d2 ⟨some pub, false⟩ = .ok s := by
  obtain ⟨outcome, hsp, hsig, hw⟩ := signPackDir_inv c ext now d priv none s d2 hsign
  obtain ⟨canonical, sk2, hc, hk2, hos⟩ := signPack_inv c ext now d priv none outcome hsp
  rw [hkey] at hk2
  cases hk2
  have hseq : s = ⟨"ed25519", deriveKeyId sk.pubBytes, now,
      "sha256:" ++ canonical.digest_hex, b64urlEncode (sk.sign canonical.bytes)⟩ := by
    rw [← hsig, hos]
    rfl
  obtain ⟨name, doc, newDoc, hf, hl, hset, hd2⟩ := writeSignature_inv ext d s d2 hw
  have hcanon2 : canonicalizePackDir ext d2 = canonicalizePackDir ext d :=
    canonicalize_writeSignature ext d s d2 hw name doc hf hl (hcons name doc hf hl)
  have hread2 : readSignature d2 = .ok (some s) :=
    readSignature_writeSignature ext d s d2 hw
  have halg : eqIgnoreAsciiCase "ed25519" "ed25519" = true := by decide
  have hdec : b64urlDecode (b64urlEncode (sk.sign canonical.bytes)) =
      .ok (sk.sign canonical.bytes) :=
    b64urlDecode_b64urlEncode _ (hbytes canonical.bytes)
  subst hseq
  unfold verifyPack
  rw [hcanon2, hc]
  simp only [hread2, halg, Bool.not_true, Bool.false_eq_true, if_false, hpub, hdec,
    hlen canonical.bytes, hcrypto canonical.bytes]
  rw [if_neg (fun hne => hne rfl), if_neg (fun hne => hne rfl),
    if_neg (fun hne => hne rfl)]
  exact if_pos trivial

theorem b64DecChunks_ok_length :
    ∀ (vs raw : List Nat), b64DecChunks vs = .ok raw →
      raw.length = 3 * (vs.length / 4) +
        (if vs.length % 4 = 2 then 1 else if vs.length % 4 = 3 then 2 else 0)
  | [], raw, h => by
      simp only [b64DecChunks, Except.ok.injEq] at h
      subst h
      rfl
  | [c1], raw, h => by simp [b64DecChunks] at h
  | [c1, c2], raw, h => by
      by_cases h2 : c2 % 16 = 0
      · simp only [b64DecChunks, if_pos h2, Except.ok.injEq] at h
        subst h
        simp
      · simp [b64DecChunks, if_neg h2] at h
  | [c1, c2, c3], raw, h => by
      by_cases h3 : c3 % 4 = 0
      · simp only [b64DecChunks, if_pos h3, Except.ok.injEq] at h
        subst h
        simp
      · simp [b64DecChunks, if_neg h3] at h
  | c1 :: c2 :: c3 :: c4 :: rest, raw, h => by
      match hrest : b64DecChunks rest with
      | .error e => simp [b64DecChunks, hrest] at h
      | .ok t =>
          simp only [b64DecChunks, hrest, Except.ok.injEq] at h
          subst h
          have ih := b64DecChunks_ok_length rest t hrest
          simp only [List.length_cons]
          have h4 : (rest.length + 1 + 1 + 1 + 1) % 4 = rest.length % 4 := by omega
          have h4d : (rest.length + 1 + 1 + 1 + 1) / 4 = rest.length / 4 + 1 := by omega
          simp only [h4, h4d]
          by_cases hm2 : rest.length % 4 = 2
          · simp only [if_pos hm2] at ih ⊢
            omega
          · simp only [if_neg hm2] at ih ⊢
            by_cases hm3 : rest.length % 4 = 3
            · simp only [if_pos hm3] at ih ⊢
              omega
            · simp only [if_neg hm3] at ih ⊢
              omega

/-- Given a pack state that passes every verification step up to the key-id
comparison, the outcome is determined by the stored sig string alone:
a decode failure maps to SignatureDecode, a decoded length other than 64 to
SignatureLength, and a cryptographic rejection to InvalidSignature. -/
theorem verify_decode_taxonomy (c : Crypto) (ext : Ext) (d : Dir)
    (cp : CanonicalizedPack) (s : PackSignature) (pem : String) (pk : List Nat)
    (au : Bool)
    (hc : canonicalizePackDir ext d = .ok cp)
    (hr : readSignature d = .ok (some s))
    (halg : eqIgnoreAsciiCase s.alg "ed25519" = true)
    (hdig : s.digest = "sha256:" ++ cp.digest_hex)
    (hparse : c.fromPublicKeyPem pem = some pk)
    (hkid : deriveKeyId pk = s.key_id) :
    (∀ e, b64urlDecode s.sig = .error e →
      verifyPack c ext d ⟨some pem, au⟩ = .error (.SignatureDecode e)) ∧
    (∀ raw, b64urlDecode s.sig = .ok raw → raw.length ≠ 64 →
      verifyPack c ext d ⟨some pem, au⟩ = .error (.SignatureLength raw.length)) ∧
    (∀ raw, b64urlDecode s.sig = .ok raw → raw.length = 64 →
      c.edVerify pk cp.bytes raw = false →
      verifyPack c ext d ⟨some pem, au⟩ = .error (.InvalidSignature s.key_id)) := by
  have hbase : ∀ rest : Except VerificationError PackSignature, True := fun _ => trivial
  refine ⟨?_, ?_, ?_⟩
  · intro e hdec
    unfold verifyPack
    simp only [hc, hr, halg, Bool.not_true, Bool.false_eq_true, if_false, hparse,
      hkid, hdec]
    rw [if_neg (fun hne => hne hdig), if_neg (fun hne => hne rfl)]
  · intro raw hdec hlen
    unfold verifyPack
    simp only [hc, hr, halg, Bool.not_true, Bool.false_eq_true, if_false, hparse,
      hkid, hdec]
    rw [if_neg (fun hne => hne hdig), if_neg (fun hne => hne rfl), if_pos hlen]
  · intro raw hdec hlen hver
    unfold verifyPack
    simp only [hc, hr, halg, Bool.not_true, Bool.false_eq_true, if_false, hparse,
      hkid, hdec, hver]
    rw [if_neg (fun hne => hne hdig), if_neg (fun hne => hne rfl),
      if_neg (fun hne => hne hlen)]

/-- C7 (amended): for a signed pack that otherwise verifies, replacing the
stored sig with an equal-length string that still decodes but fails the
cryptographic check gives InvalidSignature; truncating the sig to a length
that is a multiple of four gives SignatureLength (other truncations decode
with an error and give SignatureDecode); and inserting a character outside
the URL-safe alphabet gives SignatureDecode. -/
theorem signature_corruption_errors
    (c : Crypto) (ext : Ext) (d : Dir) (s : PackSignature)
    (cp : CanonicalizedPack) (pem : String) (pk : List Nat) (au : Bool)
    (sigStr : String) (d2 : Dir) (raw0 : List Nat)
    (hc : canonicalizePackDir ext d = .ok cp)
    (hr : readSignature d = .ok (some s))
    (halg : eqIgnoreAsciiCase s.alg "ed25519" = true)
    (hdig : s.digest = "sha256:" ++ cp.digest_hex)
    (hparse : c.fromPublicKeyPem pem = some pk)
    (hkid : deriveKeyId pk = s.key_id)
    (hdec0 : b64urlDecode s.sig = .ok raw0)
    (hraw0 : raw0.length = 64)
    (hw : writeSignature ext d { s with sig := sigStr } = .ok d2)
    (hcons : ∀ name doc, findManifestName d = some name →
      d.rootFiles.lookup name = some (some doc) →
      ∀ e ∈ d.walked, e.comps = manifestRootComps name → e.asToml = some doc) :
    (∀ raw, sigStr.data.length = s.sig.data.length →
      b64urlDecode sigStr = .ok raw → raw.length = 64 →
      c.edVerify pk cp.bytes raw = false →
      verifyPack c ext d2 ⟨some pem, au⟩ = .error (.InvalidSignature s.key_id)) ∧
    (∀ m, sigStr = ⟨s.sig.data.take m⟩ → m % 4 = 0 → m ≤ 84 →
      ∃ n, n ≠ 64 ∧
        verifyPack c ext d2 ⟨some pem, au⟩ = .error (.SignatureLength n)) ∧
    (∀ ch, ch ∈ sigStr.data → b64Val ch = none →
      ∃ e, verifyPack c ext d2 ⟨some pem, au⟩ = .error (.SignatureDecode e)) := by
  obtain ⟨name, doc, newDoc, hf, hl, hset, hd2⟩ :=
    writeSignature_inv ext d { s with sig := sigStr } d2 hw
  have hcanon2 : canonicalizePackDir ext d2 = .ok cp := by
    rw [canonicalize_writeSignature ext d _ d2 hw name doc hf hl (hcons name doc hf hl),
      hc]
  have hread2 : readSignature d2 = .ok (some { s with sig := sigStr }) :=
    readSignature_writeSignature ext d _ d2 hw
  obtain ⟨htaxDec, htaxLen, htaxVer⟩ :=
    verify_decode_taxonomy c ext d2 cp { s with sig := sigStr } pem pk au
      hcanon2 hread2 halg hdig hparse hkid
  refine ⟨?_, ?_, ?_⟩
  · intro raw _ hdec hlen hver
    exact htaxVer raw hdec hlen hver
  · intro m hm hm4 hm84
    obtain ⟨vs, hvs, hchunks, _⟩ := b64urlDecode_ok_inv s.sig raw0 hdec0
    have hvslen := length_b64ValsOfChars _ _ hvs
    have hL := b64DecChunks_ok_length vs raw0 hchunks
    rw [hraw0, hvslen] at hL
    have h86 : s.sig.data.length = 86 := by
      by_cases hm2 : s.sig.data.length % 4 = 2
      · simp only [if_pos hm2] at hL
        omega
      · simp only [if_neg hm2] at hL
        by_cases hm3 : s.sig.data.length % 4 = 3
        · simp only [if_pos hm3] at hL
          omega
        · simp only [if_neg hm3] at hL
          omega
    obtain ⟨bs, hbs, hbslen⟩ := b64urlDecode_take s.sig raw0 m hdec0 hm4 (by omega)
    refine ⟨bs.length, by omega, ?_⟩
    refine htaxLen bs ?_ (by omega)
    rw [show ({ s with sig := sigStr } : PackSignature).sig = sigStr from rfl, hm]
    exact hbs
  · intro ch hch hval
    obtain ⟨e, he⟩ := b64urlDecode_error_of_invalid_char sigStr ch hch hval
    exact ⟨e, htaxDec e he⟩

/-! Concrete instances used by the witnesses and the counterexample. -/

/-- Trivial serializers (the claims hold for every serializer). -/
def extW : Ext := ⟨fun _ => [], fun _ => []⟩

/-- A signing key whose signatures are 64 zero bytes. -/
def skW : SigKey := ⟨[], fun _ => List.replicate 64 0⟩

/-- A crypto backend accepting every PEM and every signature. -/
def cW : Crypto :=
  ⟨fun _ => some skW, fun _ => none, fun _ => none, fun _ => some [], fun _ _ _ => true⟩

/-- A pack directory with an empty walk and an empty manifest document. -/
def dW1 : Dir := ⟨[], [("pack.toml", some (Toml.table []))]⟩

def signResW : Except PackErr (PackSignature × Dir) := signPackDir cW extW 0 dW1 "priv" none

def sW1 : PackSignature :=
  match signResW with
  | .ok (s, _) => s
  | .error _ => ⟨"", "", 0, "", ""⟩

def dW2 : Dir :=
  match signResW with
  | .ok (_, d2) => d2
  | .error _ => dW1

theorem sign_then_verify_roundtrip_witness :
    verifyPack cW extW dW2 ⟨some "pub", false⟩ = .ok sW1 :=
  sign_then_verify_roundtrip cW extW 0 dW1 "priv" "pub" sW1 dW2 skW
    rfl rfl rfl (fun _ => rfl) (fun _ => by simp [skW])
    (fun _ b hb => by
      have hb0 : b = 0 := by simpa [skW] using hb
      omega)
    (fun _ _ _ _ e he => absurd he (List.not_mem_nil e))

def eA : WalkEntry := ⟨1, some false, [PComp.normal (some "b.txt")], [1, 2], none⟩

def eB : WalkEntry := ⟨1, some false, [PComp.normal (some "a.txt")], [3], none⟩

def dW3 : Dir := ⟨[eA, eB], []⟩

def dW4 : Dir := ⟨[eB, eA], []⟩

def entsW3 : List CanonicalEntry := [⟨"b.txt", [1, 2]⟩, ⟨"a.txt", [3]⟩]

def entsW4 : List CanonicalEntry := [⟨"a.txt", [3]⟩, ⟨"b.txt", [1, 2]⟩]

def cpW3 : CanonicalizedPack :=
  match canonicalizePackDir extW dW3 with
  | .ok cp => cp
  | .error _ => ⟨[], ""⟩

theorem canonical_buffer_format_witness :
    ∃ sorted : List CanonicalEntry,
      sorted.Perm entsW3 ∧
      sorted.Pairwise entryRel ∧
      cpW3.bytes = concatEntryBytes sorted ∧
      cpW3.digest_hex = hexEncode (sha256 cpW3.bytes) :=
  canonical_buffer_format extW dW3 entsW3 cpW3 rfl rfl

theorem canonicalization_order_independent_witness :
    canonicalizePackDir extW dW3 = canonicalizePackDir extW dW4 :=
  canonicalization_order_independent extW dW3 dW4 entsW3 entsW4 rfl rfl
    (by decide) (by decide)

def sigQ : PackSignature := ⟨"ed25519", "kid", 0, "sha256:d", "AA"⟩

def doc2W : Toml :=
  match setSignature (Toml.table []) sigQ with
  | .ok v => v
  | .error _ => Toml.table []

theorem strip_after_write_signature_witness :
    readManifestWithoutSignatureBytes extW (some doc2W) =
      readManifestWithoutSignatureBytes extW (some (Toml.table [])) :=
  strip_after_write_signature extW (Toml.table []) doc2W sigQ rfl

def cpW1 : CanonicalizedPack := ⟨[], hexEncode (sha256 [])⟩

theorem verify_unsigned_handling_witness :
    verifyPack cW extW dW1 ⟨none, true⟩ =
      .ok ⟨"none", "unsigned", 0, "sha256:" ++ cpW1.digest_hex, ""⟩ ∧
    verifyPack cW extW dW1 ⟨none, false⟩ = .error .MissingSignature :=
  verify_unsigned_handling cW extW dW1 cpW1 none rfl rfl

def dW0 : Dir := ⟨[], []⟩

theorem verify_manifestless_directory_witness :
    readSignature dW0 = .ok none ∧
    verifyPack cW extW dW0 ⟨none, true⟩ =
      .ok ⟨"none", "unsigned", 0, "sha256:" ++ cpW1.digest_hex, ""⟩ ∧
    verifyPack cW extW dW0 ⟨none, false⟩ = .error .MissingSignature :=
  verify_manifestless_directory cW extW dW0 cpW1 none rfl rfl

def sBad : PackSignature := ⟨"ed25519", "kid", 0, "sha256:wrong", "AA"⟩

def docBad : Toml := .table [("greentic", .table [("signature", sigToToml sBad)])]

def dBad : Dir := ⟨[], [("pack.toml", some docBad)]⟩

theorem verify_digest_precedence_witness :
    verifyPack cW extW dBad ⟨some "k", false⟩ =
      .error (.DigestMismatch sBad.digest ("sha256:" ++ cpW1.digest_hex)) :=
  verify_digest_precedence cW extW dBad ⟨some "k", false⟩ cpW1 sBad rfl rfl
    (by decide) (by decide)

def sigA86 : String := ⟨List.replicate 86 (Char.ofNat 65)⟩

def kidW : String := deriveKeyId []

def digW : String := "sha256:" ++ hexEncode (sha256 [])

def s86 : PackSignature := ⟨"ed25519", kidW, 0, digW, sigA86⟩

def doc86 : Toml := .table [("greentic", .table [("signature", sigToToml s86)])]

def d86 : Dir := ⟨[], [("pack.toml", some doc86)]⟩

def sB86 : String := ⟨List.replicate 86 (Char.ofNat 66)⟩

def d86b : Dir :=
  match writeSignature extW d86 { s86 with sig := sB86 } with
  | .ok d2 => d2
  | .error _ => d86

theorem signature_corruption_errors_witness :
    (∀ raw, sB86.data.length = s86.sig.data.length →
      b64urlDecode sB86 = .ok raw → raw.length = 64 →
      cW.edVerify [] cpW1.bytes raw = false →
      verifyPack cW extW d86b ⟨some "pem", false⟩ =
        .error (.InvalidSignature s86.key_id)) ∧
    (∀ m, sB86 = ⟨s86.sig.data.take m⟩ → m % 4 = 0 → m ≤ 84 →
      ∃ n, n ≠ 64 ∧ verifyPack cW extW d86b ⟨some "pem", false⟩ =
        .error (.SignatureLength n)) ∧
    (∀ ch, ch ∈ sB86.data → b64Val ch = none →
      ∃ e, verifyPack cW extW d86b ⟨some "pem", false⟩ = .error (.SignatureDecode e)) :=
  signature_corruption_errors cW extW d86 s86 cpW1 "pem" [] false sB86 d86b
    (List.replicate 64 0) rfl rfl rfl rfl rfl rfl rfl (by simp)
    rfl (fun name doc _ _ e he => absurd he (List.not_mem_nil e))

def s85 : PackSignature := { s86 with sig := ⟨sigA86.data.take 85⟩ }

def doc85 : Toml := .table [("greentic", .table [("signature", sigToToml s85)])]

def d85 : Dir := ⟨[], [("pack.toml", some doc85)]⟩

/-- C7 counterexample to the claim as stated: this concrete signed pack
verifies, its stored sig is an 86-character base64url string, and truncating
that string by one character (to 85 characters, congruent to 1 mod 4) makes
verification fail with SignatureDecode (the base64 invalid-length error),
not with SignatureLength as the claim asserts for truncations. -/
theorem truncation_gives_decode_error_not_length :
    verifyPack cW extW d86 ⟨some "pem", false⟩ = .ok s86 ∧
    s85.sig = ⟨s86.sig.data.take 85⟩ ∧
    verifyPack cW extW d85 ⟨some "pem", false⟩ =
      .error (.SignatureDecode .invalidLength) := by
  refine ⟨?_, rfl, ?_⟩
  · rfl
  · rfl
